import Mathlib

/-!
Shallow embedding of `srctools/filesys.py`: the `File`/`FileSystem` layer with its
concrete backends (`RawFileSystem`, `ZipFileSystem`, `VPKFileSystem`,
`VirtualFileSystem`) and the compositing `FileSystemChain`.

Paths are Python `str` values, modelled as Lean `String`.  The Python standard
library helpers the source calls (`str.casefold`, `str.replace`, `str.startswith`,
`os.path.join`, `os.path.normpath`, `os.path.abspath`, `os.path.relpath`,
`dict` construction and lookup, `io.StringIO(..., newline=None)`) are modelled
below with POSIX (`posixpath`) semantics, with the working directory made an
explicit `cwd` argument where `os.path.abspath` would consult it.
-/

set_option maxHeartbeats 1000000
set_option maxRecDepth 4000

namespace SrcToolsFS

/-- Apply `f` to every character of a string (used to model the per-character
Python string methods `str.lower`, `str.upper`, `str.casefold`, and
single-character `str.replace`). -/
def strMap (f : Char → Char) (s : String) : String := String.mk (s.data.map f)

/-- Python `str.casefold`.  For the ASCII range it coincides with lowercasing;
`Char.toLower` implements exactly the ASCII case map. -/
def casefold (s : String) : String := strMap Char.toLower s

/-- Python `str.upper` (ASCII range). -/
def strUpper (s : String) : String := strMap Char.toUpper s

/-- Python `str.lower` (ASCII range). -/
def strLower (s : String) : String := strMap Char.toLower s

/-- Python `path.replace('\\', '/')`. -/
def replaceBackslash (s : String) : String :=
  strMap (fun c => if c = '\\' then '/' else c) s

/-- Python `a.startswith(b)`. -/
def strStartsWith (a b : String) : Bool := b.data.isPrefixOf a.data

/-- Python `a.endswith(b)`. -/
def strEndsWith (a b : String) : Bool := b.data.isSuffixOf a.data

/-- Worker for `splitSlash`: accumulates the current chunk (reversed). -/
def splitSlashAux : List Char → List Char → List String
  | [], acc => [String.mk acc.reverse]
  | c :: cs, acc =>
    if c = '/' then String.mk acc.reverse :: splitSlashAux cs []
    else splitSlashAux cs (c :: acc)

/-- Python `path.split('/')`. -/
def splitSlash (s : String) : List String := splitSlashAux s.data []

/-- Python `'/'.join(parts)` (also `posixpath.join` over slash-free parts). -/
def joinSlash : List String → String
  | [] => ""
  | [s] => s
  | s :: rest => s ++ "/" ++ joinSlash rest

/-- The leading-slash count computed by `posixpath.normpath`: one leading slash
is preserved as one, exactly two are preserved as two (POSIX allows an
implementation-defined meaning for `//`), three or more collapse to one. -/
def initialSlashCount (p : String) : Nat :=
  if strStartsWith p "/" then
    if strStartsWith p "//" && !(strStartsWith p "///") then 2 else 1
  else 0

/-- The component loop of `posixpath.normpath`: drop empty and `.` components,
let `..` pop a previous normal component, keep leading `..` on relative paths,
drop `..` at the root of absolute paths. -/
def normSegs (initAbs : Bool) : List String → List String → List String
  | acc, [] => acc
  | acc, comp :: rest =>
    if comp = "" ∨ comp = "." then normSegs initAbs acc rest
    else if comp ≠ ".." ∨ (initAbs = false ∧ acc = []) ∨ acc.getLast? = some ".." then
      normSegs initAbs (acc ++ [comp]) rest
    else normSegs initAbs acc.dropLast rest

/-- Final assembly of `posixpath.normpath`: prepend the kept leading slashes,
join the processed components with `/`, and return `.` if the result is empty
(`return path or dot`). -/
def normpathCore (slashes : Nat) (comps : List String) : String :=
  if String.mk (List.replicate slashes '/') ++ joinSlash (normSegs (slashes != 0) [] comps) = ""
  then "."
  else String.mk (List.replicate slashes '/') ++ joinSlash (normSegs (slashes != 0) [] comps)

/-- Model of `posixpath.normpath`. -/
def normpath (p : String) : String :=
  if p = "" then "." else normpathCore (initialSlashCount p) (splitSlash p)

/-- Model of two-argument `posixpath.join`. -/
def pathJoin (a b : String) : String :=
  if strStartsWith b "/" then b
  else if a = "" ∨ strEndsWith a "/" then a ++ b
  else a ++ "/" ++ b

/-- Model of `posixpath.abspath`, with the working directory explicit. -/
def abspath (cwd p : String) : String :=
  if strStartsWith p "/" then normpath p else normpath (pathJoin cwd p)

/-- Length of the longest common prefix of two segment lists
(`len(os.path.commonprefix([xs, ys]))`). -/
def commonPrefixLen : List String → List String → Nat
  | a :: as', b :: bs => if a = b then commonPrefixLen as' bs + 1 else 0
  | _, _ => 0

/-- The component list `['..'] * (len(start_list) - i) + path_list[i:]` that
`posixpath.relpath` joins. -/
def relpathSegs (startList pathList : List String) : List String :=
  List.replicate (startList.length - commonPrefixLen startList pathList) ".."
    ++ pathList.drop (commonPrefixLen startList pathList)

/-- The nonempty components of a path, as `posixpath.relpath` extracts them
(`[x for x in abspath(p).split(sep) if x]`). -/
def relpathParts (cwd p : String) : List String :=
  (splitSlash (abspath cwd p)).filter (fun x => x ≠ "")

/-- Model of `posixpath.relpath`, with the working directory explicit. -/
def relpath (cwd p start : String) : String :=
  if relpathSegs (relpathParts cwd start) (relpathParts cwd p) = [] then "."
  else joinSlash (relpathSegs (relpathParts cwd start) (relpathParts cwd p))

/-- Universal-newline translation applied when reading a text stream opened
with `newline=None`: `\r\n` and lone `\r` both read back as `\n`. -/
def univNewlinesAux : List Char → List Char
  | [] => []
  | '\r' :: '\n' :: rest => '\n' :: univNewlinesAux rest
  | '\r' :: rest => '\n' :: univNewlinesAux rest
  | c :: rest => c :: univNewlinesAux rest

/-- Universal-newline translation on strings. -/
def univNewlines (s : String) : String := String.mk (univNewlinesAux s.data)

/-- Python `dict` assignment: overwrite the value in place if the key is
already present (the original key object and position are kept), else append. -/
def dictInsert (k : String) (v : α) : List (String × α) → List (String × α)
  | [] => [(k, v)]
  | (k', v') :: rest =>
    if k' = k then (k', v) :: rest else (k', v') :: dictInsert k v rest

/-- Build a Python `dict` from an association list, as a dict comprehension
does: later duplicate keys overwrite earlier values. -/
def buildDict (l : List (String × α)) : List (String × α) :=
  l.foldl (fun d kv => dictInsert kv.1 kv.2 d) []

/-- Python `d[k]` / `k in d` combined: look a key up in a dict. -/
def dictLookup (d : List (String × α)) (k : String) : Option α :=
  (d.find? (fun kv => kv.1 = k)).map (fun kv => kv.2)

/-- Python `dict.__eq__`: equal exactly when the two dicts map the same keys to
the same values (insertion order is irrelevant). -/
def dictEqB [BEq α] (d₁ d₂ : List (String × α)) : Bool :=
  d₁.all (fun kv => dictLookup d₂ kv.1 == some kv.2) &&
  d₂.all (fun kv => dictLookup d₁ kv.1 == some kv.2)

/-! ## The backends -/

/-- Content stored in a `VirtualFileSystem` mapping: Python `str` or `bytes`. -/
inductive VContent where
  | text (s : String)
  | binary (b : List Nat)
deriving DecidableEq

/-- A `File` whose backend-private payload is a path string, as produced by
`RawFileSystem` and `VirtualFileSystem` (`File(self, path, path)`). -/
structure VFile where
  path : String
  data : String
deriving DecidableEq

/-- `VirtualFileSystem` state after construction: the locator (`'<virtual>'`),
the built `_mapping` dict (case-folded key to `(original filename, data)`),
and `bytes_encoding`. -/
structure VirtualFS where
  path : String
  mapping : List (String × (String × VContent))
  bytes_encoding : String
deriving DecidableEq

/-- `VirtualFileSystem._clean_path`:
`os.path.normpath(path).replace('\\', '/').casefold()`. -/
def cleanPath (p : String) : String := casefold (replaceBackslash (normpath p))

/-- `VirtualFileSystem.__init__`: capture the mapping, keyed by cleaned path. -/
def virtualMake (m : List (String × VContent)) (encoding : String) : VirtualFS :=
  ⟨"<virtual>", buildDict (m.map (fun kv => (cleanPath kv.1, (kv.1, kv.2)))), encoding⟩

/-- `VirtualFileSystem._get_file`: index by cleaned path, return
`File(self, filename, filename)` with the original stored filename. -/
def virtualGetFile (v : VirtualFS) (name : String) : Option VFile :=
  (dictLookup v.mapping (cleanPath name)).map (fun fd => ⟨fd.1, fd.1⟩)

/-- `VirtualFileSystem._file_exists`. -/
def virtualExists (v : VirtualFS) (name : String) : Bool :=
  (dictLookup v.mapping (cleanPath name)).isSome

/-- `VirtualFileSystem.walk_folder`: clean the folder argument, then yield every
mapping value whose *original-case* stored filename starts with it. -/
def virtualWalkFolder (v : VirtualFS) (folder : String) : List VFile :=
  (v.mapping.map (fun kv => kv.2)).filterMap
    (fun fd => if strStartsWith fd.1 (cleanPath folder) then some (⟨fd.1, fd.1⟩ : VFile)
      else none)

/-- What `VirtualFileSystem.open_str` hands back: either the full contents of a
`StringIO(data, newline=None)` text stream (no encoding involved), or the raw
byte data wrapped in a decoder for the caller-supplied encoding. -/
inductive VirtTextResult where
  | textStream (s : String)
  | decodeStream (encoding : String) (b : List Nat)
deriving DecidableEq

/-- `VirtualFileSystem.open_str`. -/
def virtualOpenStr (v : VirtualFS) (name : String) (encoding : String) :
    Option VirtTextResult :=
  match dictLookup v.mapping (cleanPath name) with
  | none => none
  | some (_, .binary b) => some (.decodeStream encoding b)
  | some (_, .text s) => some (.textStream (univNewlines s))

/-- `FileSystem._get_cache_key` default (also `CACHE_KEY_INVALID`). -/
def CACHE_KEY_INVALID : Int := -1

/-- `VirtualFileSystem` inherits the base `_get_cache_key`. -/
def virtualCacheKey (_ : VirtualFS) (_ : VFile) : Int := CACHE_KEY_INVALID

/-- `VirtualFileSystem.__eq__`: compares `bytes_encoding` and the `_mapping`
dicts (not the root locator). -/
def virtualFSEq (a b : VirtualFS) : Bool :=
  a.bytes_encoding == b.bytes_encoding && dictEqB a.mapping b.mapping

/-- `RawFileSystem` state: the absolute root (the constructor applies
`os.path.abspath`) and the `constrain_path` flag. -/
structure RawFS where
  path : String
  constrain_path : Bool
deriving DecidableEq

/-- `RawFileSystem._resolve_path`: join onto the root, take the absolute form,
and if constrained reject (`none`, modelling the `ValueError`) unless the
result has the root as a *string* prefix. -/
def rawResolvePath (cwd : String) (fs : RawFS) (p : String) : Option String :=
  if fs.constrain_path && !(strStartsWith (abspath cwd (pathJoin fs.path p)) fs.path) then none
  else some (abspath cwd (pathJoin fs.path p))

/-- Outcome of a `RawFileSystem` lookup: a `File`, `FileNotFoundError`, or the
`ValueError` escape. -/
inductive RawResult where
  | found (f : VFile)
  | notFound
  | pathEscape
deriving DecidableEq

/-- `RawFileSystem._get_file`; `isfile` models the host's `os.path.isfile`. -/
def rawGetFile (cwd : String) (isfile : String → Bool) (fs : RawFS) (name : String) :
    RawResult :=
  match rawResolvePath cwd fs name with
  | none => .pathEscape
  | some absPath =>
    if isfile absPath then .found ⟨replaceBackslash name, replaceBackslash name⟩
    else .notFound

/-- `FileSystem.__eq__` as inherited by `RawFileSystem`: same concrete type and
equal `os.path.normpath`-normalized locators.  `constrain_path` is not
compared. -/
def rawFSEq (a b : RawFS) : Bool := normpath a.path == normpath b.path

/-- A zip central-directory entry as the code uses it: name and stored CRC. -/
structure ZipEntry where
  filename : String
  CRC : Int
deriving DecidableEq

/-- `ZipFileSystem` state: locator, the archive's entry list, and the
constructed case-folded `_name_to_info` index. -/
structure ZipFS where
  path : String
  entries : List ZipEntry
  index : List (String × ZipEntry)
deriving DecidableEq

/-- `ZipFileSystem.__init__`: index every entry whose name does not end in `/`
(directory markers are skipped) under its case-folded name. -/
def zipMake (path : String) (entries : List ZipEntry) : ZipFS :=
  ⟨path, entries,
    buildDict ((entries.filter (fun e => !(strEndsWith e.filename "/"))).map
      (fun e => (casefold e.filename, e)))⟩

/-- A `File` produced by `ZipFileSystem`: the slash-normalized requested name
and the `ZipInfo` payload. -/
structure ZipFile where
  path : String
  info : ZipEntry
deriving DecidableEq

/-- `ZipFileSystem._get_file`: normalize slashes, look up the case-folded name,
return `File(self, name, info)`. -/
def zipGetFile (z : ZipFS) (name : String) : Option ZipFile :=
  (dictLookup z.index (casefold (replaceBackslash name))).map
    (fun info => ⟨replaceBackslash name, info⟩)

/-- `ZipFileSystem._get_cache_key`: the entry's stored CRC. -/
def zipCacheKey (_ : ZipFS) (f : ZipFile) : Int := f.info.CRC

/-- `FileSystem.__eq__` as inherited by `ZipFileSystem` (index not compared). -/
def zipFSEq (a b : ZipFS) : Bool := normpath a.path == normpath b.path

/-- A VPK directory entry as the code uses it. -/
structure VPKEntry where
  filename : String
  dir : String
  crc : Int
deriving DecidableEq

/-- `VPKFileSystem` state: locator and the `_name_to_file` index. -/
structure VPKFS where
  path : String
  index : List (String × VPKEntry)
deriving DecidableEq

/-- `VPKFileSystem.__init__`: index every archive file under
`file.filename.replace('\\', '/').casefold()`. -/
def vpkMake (path : String) (files : List VPKEntry) : VPKFS :=
  ⟨path, buildDict (files.map (fun f => (casefold (replaceBackslash f.filename), f)))⟩

/-- A `File` produced by `VPKFileSystem`: the folded key and the entry. -/
structure VPKFileHandle where
  path : String
  info : VPKEntry
deriving DecidableEq

/-- `VPKFileSystem._get_file`: key is `name.casefold().replace('\\', '/')`;
returns `File(self, key, file)`. -/
def vpkGetFile (v : VPKFS) (name : String) : Option VPKFileHandle :=
  (dictLookup v.index (replaceBackslash (casefold name))).map
    (fun f => ⟨replaceBackslash (casefold name), f⟩)

/-- `VPKFileSystem._get_cache_key`. -/
def vpkCacheKey (_ : VPKFS) (f : VPKFileHandle) : Int := f.info.crc

/-! ## The chain -/

/-- A `File` produced by a chain member, seen abstractly: its `path` attribute
and an opaque payload. -/
structure InnerFile where
  path : String
  data : String
deriving DecidableEq

/-- A chain member backend, abstracted to the two operations
`FileSystemChain` invokes on it (`_get_file`, raising `FileNotFoundError`
modelled as `none`, and `walk_folder`). -/
structure MemberFS where
  getFile : String → Option InnerFile
  walkFolder : String → List InnerFile

/-- A `File` produced by `FileSystemChain`: its `path` and the member's `File`
kept as the payload. -/
structure ChainFile where
  path : String
  inner : InnerFile
deriving DecidableEq

/-- `FileSystemChain._get_file`: try each member in order on
`os.path.join(prefix, name).replace('\\', '/')`; first success wins and is
wrapped as `File(self, full_name, file_info)`; else `FileNotFoundError`. -/
def chainGetFile : List (MemberFS × String) → String → Option ChainFile
  | [], _ => none
  | (sys, pfx) :: rest, name =>
    let fullName := replaceBackslash (pathJoin pfx name)
    match sys.getFile fullName with
    | some fi => some ⟨fullName, fi⟩
    | none => chainGetFile rest name

/-- `FileSystemChain.walk_folder_repeat`: walk every member under the joined
folder, re-rooting each yielded path with
`os.path.relpath(file.path, prefix).replace('\\', '/')`. -/
def chainWalkRepeat (cwd : String) : List (MemberFS × String) → String → List ChainFile
  | [], _ => []
  | (sys, pfx) :: rest, folder =>
    let fullFolder := replaceBackslash (pathJoin pfx folder)
    (sys.walkFolder fullFolder).map
      (fun f => (⟨replaceBackslash (relpath cwd f.path pfx), f⟩ : ChainFile))
      ++ chainWalkRepeat cwd rest folder

/-- The dedup loop of `FileSystemChain.walk_folder`: `done` is the visited set
of case-folded paths, scoped to one traversal. -/
def dedupCasefold (done : List String) : List ChainFile → List ChainFile
  | [] => []
  | f :: rest =>
    if casefold f.path ∈ done then dedupCasefold done rest
    else f :: dedupCasefold (casefold f.path :: done) rest

/-- `FileSystemChain.walk_folder`: `walk_folder_repeat` with duplicates (by
case-folded path) dropped after their first occurrence. -/
def chainWalk (cwd : String) (systems : List (MemberFS × String)) (folder : String) :
    List ChainFile :=
  dedupCasefold [] (chainWalkRepeat cwd systems folder)

/-- A `VirtualFileSystem` viewed as a chain member. -/
def memberOfVirtual (v : VirtualFS) : MemberFS :=
  ⟨fun name => (virtualGetFile v name).map (fun f => ⟨f.path, f.data⟩),
   fun folder => (virtualWalkFolder v folder).map (fun f => ⟨f.path, f.data⟩)⟩

/-! ## Auxiliary notions used by the statements -/

/-- A plain path segment: nonempty, not a dot segment, and free of both
separator characters. -/
def NormalSeg (s : String) : Prop :=
  s ≠ "" ∧ s ≠ "." ∧ s ≠ ".." ∧ '/' ∉ s.data ∧ '\\' ∉ s.data

instance : DecidablePred NormalSeg := fun s => by unfold NormalSeg; infer_instance

/-- The spec's notion of a resolved path lying within the root: equal to the
root, or extending it at a path-segment boundary (root plus a separator).
This follows the spec's words; the code's check is `startswith` instead. -/
def withinRootBoundary (root p : String) : Bool :=
  p == root || strStartsWith p (root ++ "/")

/-- A characterwise string map that leaves both separators and dots alone
(and reflects them).  `Char.toUpper` and `Char.toLower` both qualify; it is
what makes `normpath`, `replace` and the folded indexes commute with case
changes. -/
structure CharMapOK (f : Char → Char) : Prop where
  slash : f '/' = '/'
  slash_inv : ∀ c, f c = '/' → c = '/'
  dot : f '.' = '.'
  dot_inv : ∀ c, f c = '.' → c = '.'
  bslash : f '\\' = '\\'
  bslash_inv : ∀ c, f c = '\\' → c = '\\'

/-! ### Concrete fixtures used by witnesses and counterexamples -/

/-- A case-sensitive host filesystem (e.g. Linux ext4) containing exactly the
regular file `/root/a.txt`. -/
def caseSensHost : String → Bool := fun s => s == "/root/a.txt"

/-- A chain member that resolves nothing. -/
def memberNone : MemberFS := ⟨fun _ => none, fun _ => []⟩

/-- A chain member resolving exactly `x`, with payload tagged `A`; walking its
root yields `x.txt`. -/
def memberA : MemberFS :=
  ⟨fun n => if n = "x" then some ⟨"x", "A"⟩ else none,
   fun f => if f = "" then [⟨"x.txt", "dataA"⟩] else []⟩

/-- A chain member resolving exactly `x`, with payload tagged `B`; walking its
root yields `X.TXT` (same logical path as `memberA`'s file, different case). -/
def memberB : MemberFS :=
  ⟨fun n => if n = "x" then some ⟨"x", "B"⟩ else none,
   fun f => if f = "" then [⟨"X.TXT", "dataB"⟩] else []⟩

/-- A chain member containing `maps/de_dust.bsp`. -/
def memberMaps : MemberFS :=
  ⟨fun n => if n = "maps/de_dust.bsp" then some ⟨"maps/de_dust.bsp", "bsp"⟩ else none,
   fun f => if f = "maps/" then [⟨"maps/de_dust.bsp", "bsp"⟩] else []⟩

/-! ## Lemmas: splitting and joining on `/` -/

theorem string_eq_empty_iff {s : String} : s = "" ↔ s.data = [] :=
  ⟨fun h => h ▸ rfl, fun h => String.ext h⟩

theorem splitSlashAux_append_slash (xs ys acc : List Char) :
    splitSlashAux (xs ++ '/' :: ys) acc = splitSlashAux xs acc ++ splitSlashAux ys [] := by
  induction xs generalizing acc with
  | nil => simp [splitSlashAux]
  | cons c cs ih =>
    by_cases hc : c = '/'
    · subst hc; simp [splitSlashAux, ih]
    · simp [splitSlashAux, hc, ih]

theorem splitSlashAux_no_slash (cs : List Char) (acc : List Char) (h : '/' ∉ cs) :
    splitSlashAux cs acc = [String.mk (acc.reverse ++ cs)] := by
  induction cs generalizing acc with
  | nil => simp [splitSlashAux]
  | cons c cs ih =>
    have hc : c ≠ '/' := fun hq => h (hq ▸ List.mem_cons_self c cs)
    have hrest : '/' ∉ cs := fun hm => h (List.mem_cons_of_mem _ hm)
    simp [splitSlashAux, hc, ih _ hrest]

theorem splitSlash_append (a b : String) :
    splitSlash (a ++ "/" ++ b) = splitSlash a ++ splitSlash b := by
  unfold splitSlash
  have hd : (a ++ "/" ++ b).data = a.data ++ '/' :: b.data := by
    simp [String.data_append]
  rw [hd, splitSlashAux_append_slash]

theorem splitSlash_no_slash (s : String) (h : '/' ∉ s.data) : splitSlash s = [s] := by
  unfold splitSlash
  rw [splitSlashAux_no_slash _ _ h]
  simp

theorem joinSlash_cons (s : String) (rest : List String) (h : rest ≠ []) :
    joinSlash (s :: rest) = s ++ "/" ++ joinSlash rest := by
  cases rest with
  | nil => exact absurd rfl h
  | cons b bs => rfl

theorem joinSlash_append (as bs : List String) (ha : as ≠ []) (hb : bs ≠ []) :
    joinSlash (as ++ bs) = joinSlash as ++ "/" ++ joinSlash bs := by
  induction as with
  | nil => exact absurd rfl ha
  | cons a as' ih =>
    cases as' with
    | nil =>
      rw [List.singleton_append, joinSlash_cons a bs hb]
      rfl
    | cons a2 as'' =>
      rw [List.cons_append, joinSlash_cons a (a2 :: as'' ++ bs) (by simp),
        joinSlash_cons a (a2 :: as'') (by simp), ih (by simp)]
      simp [String.append_assoc]

theorem splitSlash_joinSlash (segs : List String) (h0 : segs ≠ [])
    (h : ∀ s ∈ segs, '/' ∉ s.data) : splitSlash (joinSlash segs) = segs := by
  induction segs with
  | nil => exact absurd rfl h0
  | cons s rest ih =>
    cases rest with
    | nil => exact splitSlash_no_slash s (h s (by simp))
    | cons b bs =>
      rw [joinSlash_cons s (b :: bs) (by simp), splitSlash_append,
        splitSlash_no_slash s (h s (by simp)),
        ih (by simp) (fun x hx => h x (List.mem_cons_of_mem _ hx))]
      rfl

theorem joinSlash_data_reverse (segs : List String) (h0 : segs ≠ [])
    (h : ∀ s ∈ segs, NormalSeg s) :
    ∃ c cl, (joinSlash segs).data.reverse = c :: cl ∧ c ≠ '/' := by
  induction segs with
  | nil => exact absurd rfl h0
  | cons s rest ih =>
    cases rest with
    | nil =>
      obtain ⟨hne, -, -, hns, -⟩ := h s (by simp)
      rcases hrev : s.data.reverse with _ | ⟨c, cl⟩
      · exact absurd (string_eq_empty_iff.mpr (by simpa using congrArg List.reverse hrev)) hne
      · refine ⟨c, cl, by simpa [joinSlash] using hrev, fun hc => hns ?_⟩
        have hmem : c ∈ s.data.reverse := by rw [hrev]; exact List.mem_cons_self _ _
        rw [← hc]
        simpa using hmem
    | cons b bs =>
      obtain ⟨c, cl, hrev, hc⟩ := ih (by simp) (fun x hx => h x (List.mem_cons_of_mem _ hx))
      refine ⟨c, cl ++ '/' :: s.data.reverse, ?_, hc⟩
      rw [joinSlash_cons s (b :: bs) (by simp)]
      simp [String.data_append, hrev]

theorem joinSlash_head_ne_slash (s : String) (rest : List String) (hs : NormalSeg s) :
    ∃ c cl, (joinSlash (s :: rest)).data = c :: cl ∧ c ≠ '/' := by
  obtain ⟨hne, -, -, hns, -⟩ := hs
  rcases hd : s.data with _ | ⟨c, cl⟩
  · exact absurd (string_eq_empty_iff.mpr hd) hne
  · have hc : c ≠ '/' := fun hq => hns (by rw [hd]; exact hq ▸ List.mem_cons_self c cl)
    cases rest with
    | nil => exact ⟨c, cl, by simpa [joinSlash] using hd, hc⟩
    | cons b bs =>
      refine ⟨c, cl ++ '/' :: (joinSlash (b :: bs)).data, ?_, hc⟩
      rw [joinSlash_cons s (b :: bs) (by simp)]
      simp [String.data_append, hd]

theorem joinSlash_no_bslash (segs : List String) (h : ∀ s ∈ segs, NormalSeg s) :
    '\\' ∉ (joinSlash segs).data := by
  induction segs with
  | nil => simp [joinSlash]
  | cons s rest ih =>
    obtain ⟨-, -, -, -, hnb⟩ := h s (by simp)
    cases rest with
    | nil => simpa [joinSlash] using hnb
    | cons b bs =>
      rw [joinSlash_cons s (b :: bs) (by simp)]
      have ihr := ih (fun x hx => h x (List.mem_cons_of_mem _ hx))
      have hd2 : (s ++ "/" ++ joinSlash (b :: bs)).data
          = s.data ++ '/' :: (joinSlash (b :: bs)).data := by simp [String.data_append]
      rw [hd2]
      intro hmem
      rcases List.mem_append.mp hmem with h1 | h2
      · exact hnb h1
      · rcases List.mem_cons.mp h2 with h3 | h4
        · exact absurd h3 (by decide)
        · exact ihr h4

/-! ## Lemmas: `normpath`, `pathJoin`, `abspath`, `relpath` on clean inputs -/

theorem string_empty_append (s : String) : "" ++ s = s :=
  String.ext (by simp [String.data_append])

theorem string_append_empty (s : String) : s ++ "" = s :=
  String.ext (by simp [String.data_append])

theorem isPrefixOf_slash_false (c : Char) (l : List Char) (hc : c ≠ '/') :
    List.isPrefixOf ['/'] (c :: l) = false := by
  simp [List.isPrefixOf, beq_iff_eq]
  exact fun h => hc h.symm

theorem strStartsWith_slash_false (s : String) (c : Char) (l : List Char)
    (hd : s.data = c :: l) (hc : c ≠ '/') : strStartsWith s "/" = false := by
  unfold strStartsWith
  rw [show ("/" : String).data = ['/'] from rfl, hd]
  exact isPrefixOf_slash_false c l hc

theorem strStartsWith_empty_slash : strStartsWith "" "/" = false := rfl

theorem strEndsWith_slash_false (a : String) (c : Char) (cl : List Char)
    (hrev : a.data.reverse = c :: cl) (hc : c ≠ '/') : strEndsWith a "/" = false := by
  unfold strEndsWith
  unfold List.isSuffixOf
  rw [show ("/" : String).data = ['/'] from rfl, show (['/'] : List Char).reverse = ['/'] from rfl,
    hrev]
  exact isPrefixOf_slash_false c cl hc

theorem initialSlashCount_zero (s : String) (c : Char) (l : List Char)
    (hd : s.data = c :: l) (hc : c ≠ '/') : initialSlashCount s = 0 := by
  unfold initialSlashCount
  rw [strStartsWith_slash_false s c l hd hc]
  rfl

theorem initialSlashCount_one (s : String) (c : Char) (l : List Char)
    (hd : s.data = '/' :: c :: l) (hc : c ≠ '/') : initialSlashCount s = 1 := by
  unfold initialSlashCount strStartsWith
  rw [hd]
  have h1 : List.isPrefixOf ("/" : String).data ('/' :: c :: l) = true := by
    simp [List.isPrefixOf]
  have h2 : List.isPrefixOf ("//" : String).data ('/' :: c :: l) = false := by
    rw [show ("//" : String).data = ['/', '/'] from rfl]
    simp [List.isPrefixOf, beq_iff_eq]
    exact fun h => hc h.symm
  simp [h1, h2]

theorem normSegs_cons (i : Bool) (acc : List String) (comp : String) (rest : List String) :
    normSegs i acc (comp :: rest)
      = if comp = "" ∨ comp = "." then normSegs i acc rest
        else if comp ≠ ".." ∨ (i = false ∧ acc = []) ∨ acc.getLast? = some ".."
        then normSegs i (acc ++ [comp]) rest
        else normSegs i acc.dropLast rest := rfl

theorem normSegs_normal (i : Bool) (acc comps : List String)
    (h : ∀ c ∈ comps, NormalSeg c) : normSegs i acc comps = acc ++ comps := by
  induction comps generalizing acc with
  | nil => simp [normSegs]
  | cons c rest ih =>
    obtain ⟨h1, h2, h3, -, -⟩ := h c (by simp)
    rw [normSegs_cons, if_neg (fun hor => hor.elim h1 h2), if_pos (Or.inl h3),
      ih _ (fun x hx => h x (List.mem_cons_of_mem _ hx))]
    simp

theorem normSegs_trailing_empty (i : Bool) (acc comps : List String) :
    normSegs i acc (comps ++ [""]) = normSegs i acc comps := by
  induction comps generalizing acc with
  | nil => simp [normSegs]
  | cons c rest ih =>
    rw [List.cons_append, normSegs_cons, normSegs_cons]
    by_cases hskip : c = "" ∨ c = "."
    · rw [if_pos hskip, if_pos hskip, ih]
    · rw [if_neg hskip, if_neg hskip]
      by_cases happ : c ≠ ".." ∨ (i = false ∧ acc = []) ∨ acc.getLast? = some ".."
      · rw [if_pos happ, if_pos happ, ih]
      · rw [if_neg happ, if_neg happ, ih]

theorem splitSlash_abs (segs : List String) (h0 : segs ≠ [])
    (h : ∀ s ∈ segs, '/' ∉ s.data) :
    splitSlash ("/" ++ joinSlash segs) = "" :: segs := by
  have he : ("" : String) ++ "/" ++ joinSlash segs = "/" ++ joinSlash segs := by
    rw [string_empty_append]
  rw [← he, splitSlash_append, splitSlash_joinSlash segs h0 h]
  rfl

theorem normpath_abs_normal (segs : List String) (h : ∀ s ∈ segs, NormalSeg s) :
    normpath ("/" ++ joinSlash segs) = "/" ++ joinSlash segs := by
  cases segs with
  | nil => decide
  | cons s rest =>
    obtain ⟨c, cl, hd, hc⟩ := joinSlash_head_ne_slash s rest (h s (by simp))
    have hdata : ("/" ++ joinSlash (s :: rest)).data = '/' :: c :: cl := by
      simp [String.data_append, hd]
    have hne : ("/" ++ joinSlash (s :: rest)) ≠ "" := by
      intro hq
      rw [string_eq_empty_iff, hdata] at hq
      cases hq
    have hcount : initialSlashCount ("/" ++ joinSlash (s :: rest)) = 1 :=
      initialSlashCount_one _ c cl hdata hc
    have hsplit : splitSlash ("/" ++ joinSlash (s :: rest)) = "" :: s :: rest :=
      splitSlash_abs (s :: rest) (by simp) (fun x hx => (h x hx).2.2.2.1)
    unfold normpath
    rw [if_neg hne, hcount, hsplit]
    unfold normpathCore
    have hsegs : normSegs ((1 : Nat) != 0) [] ("" :: s :: rest) = s :: rest := by
      show normSegs true [] ("" :: s :: rest) = s :: rest
      rw [normSegs_cons, if_pos (Or.inl rfl)]
      simpa using normSegs_normal true [] (s :: rest) h
    rw [hsegs]
    have hres : String.mk (List.replicate 1 '/') ++ joinSlash (s :: rest)
        = "/" ++ joinSlash (s :: rest) := rfl
    rw [hres, if_neg hne]

theorem normpath_abs_normal_trailing (s : String) (rest : List String)
    (h : ∀ x ∈ s :: rest, NormalSeg x) :
    normpath ("/" ++ joinSlash (s :: rest) ++ "/") = "/" ++ joinSlash (s :: rest) := by
  obtain ⟨c, cl, hd, hc⟩ := joinSlash_head_ne_slash s rest (h s (by simp))
  have hdata : ("/" ++ joinSlash (s :: rest) ++ "/").data = '/' :: c :: (cl ++ ['/']) := by
    simp [String.data_append, hd]
  have hne : ("/" ++ joinSlash (s :: rest) ++ "/") ≠ "" := by
    intro hq
    rw [string_eq_empty_iff, hdata] at hq
    cases hq
  have hcount : initialSlashCount ("/" ++ joinSlash (s :: rest) ++ "/") = 1 :=
    initialSlashCount_one _ c (cl ++ ['/']) hdata hc
  have hsplit : splitSlash ("/" ++ joinSlash (s :: rest) ++ "/") = ("" :: s :: rest) ++ [""] := by
    have he : ("/" ++ joinSlash (s :: rest) ++ "/") = ("/" ++ joinSlash (s :: rest)) ++ "/" ++ "" := by
      rw [string_append_empty]
    rw [he, splitSlash_append,
      splitSlash_abs (s :: rest) (by simp) (fun x hx => (h x hx).2.2.2.1)]
    rfl
  unfold normpath
  rw [if_neg hne, hcount, hsplit]
  unfold normpathCore
  have hsegs : normSegs ((1 : Nat) != 0) [] (("" :: s :: rest) ++ [""]) = s :: rest := by
    rw [normSegs_trailing_empty]
    show normSegs true [] ("" :: s :: rest) = s :: rest
    rw [normSegs_cons, if_pos (Or.inl rfl)]
    simpa using normSegs_normal true [] (s :: rest) h
  rw [hsegs]
  have hres : String.mk (List.replicate 1 '/') ++ joinSlash (s :: rest)
      = "/" ++ joinSlash (s :: rest) := rfl
  rw [hres]
  have hne2 : ("/" ++ joinSlash (s :: rest)) ≠ "" := by
    intro hq
    rw [string_eq_empty_iff] at hq
    rw [show ("/" ++ joinSlash (s :: rest)).data = '/' :: c :: cl by
      simp [String.data_append, hd]] at hq
    cases hq
  rw [if_neg hne2]

theorem abs_cwd_ne_empty (t : String) (ts : List String) (hn : NormalSeg t) :
    ("/" ++ joinSlash (t :: ts)) ≠ "" := by
  obtain ⟨ch, clh, hdh, -⟩ := joinSlash_head_ne_slash t ts hn
  intro hq
  rw [string_eq_empty_iff] at hq
  rw [show ("/" ++ joinSlash (t :: ts)).data = '/' :: ch :: clh by
    simp [String.data_append, hdh]] at hq
  cases hq

theorem abs_cwd_not_endswith_slash (t : String) (ts : List String)
    (hc : ∀ s ∈ t :: ts, NormalSeg s) :
    strEndsWith ("/" ++ joinSlash (t :: ts)) "/" = false := by
  obtain ⟨cr, clr, hrev, hcr⟩ := joinSlash_data_reverse (t :: ts) (by simp) hc
  have hrev2 : ("/" ++ joinSlash (t :: ts)).data.reverse = cr :: (clr ++ ['/']) := by
    simp [String.data_append, hrev]
  exact strEndsWith_slash_false _ cr (clr ++ ['/']) hrev2 hcr

theorem abspath_clean (cwdSegs segs : List String)
    (hc : ∀ s ∈ cwdSegs, NormalSeg s) (hs : ∀ s ∈ segs, NormalSeg s) :
    abspath ("/" ++ joinSlash cwdSegs) (joinSlash segs)
      = "/" ++ joinSlash (cwdSegs ++ segs) := by
  cases segs with
  | nil =>
    unfold abspath
    rw [show strStartsWith (joinSlash ([] : List String)) "/" = false from rfl,
      if_neg Bool.false_ne_true]
    cases cwdSegs with
    | nil => decide
    | cons t ts =>
      have hends := abs_cwd_not_endswith_slash t ts hc
      have hnemp := abs_cwd_ne_empty t ts (hc t (by simp))
      unfold pathJoin
      rw [show strStartsWith (joinSlash ([] : List String)) "/" = false from rfl,
        if_neg Bool.false_ne_true,
        if_neg (fun hor => hor.elim hnemp (fun hw => by rw [hends] at hw; cases hw))]
      rw [show (joinSlash ([] : List String)) = "" from rfl, string_append_empty,
        normpath_abs_normal_trailing t ts hc]
      simp
  | cons q qs =>
    obtain ⟨cq, clq, hdq, hcq⟩ := joinSlash_head_ne_slash q qs (hs q (by simp))
    have hb : strStartsWith (joinSlash (q :: qs)) "/" = false :=
      strStartsWith_slash_false _ cq clq hdq hcq
    unfold abspath pathJoin
    rw [hb, if_neg Bool.false_ne_true, if_neg Bool.false_ne_true]
    cases cwdSegs with
    | nil =>
      have hcwd : ("/" : String) ++ joinSlash ([] : List String) = "/" := by
        rw [show (joinSlash ([] : List String)) = "" from rfl, string_append_empty]
      rw [hcwd, if_pos (Or.inr (by decide)), normpath_abs_normal (q :: qs) hs]
      simp
    | cons t ts =>
      have hends := abs_cwd_not_endswith_slash t ts hc
      have hnemp := abs_cwd_ne_empty t ts (hc t (by simp))
      rw [if_neg (fun hor => hor.elim hnemp (fun hw => by rw [hends] at hw; cases hw))]
      have hassoc : ("/" ++ joinSlash (t :: ts)) ++ "/" ++ joinSlash (q :: qs)
          = "/" ++ joinSlash ((t :: ts) ++ (q :: qs)) := by
        rw [joinSlash_append (t :: ts) (q :: qs) (by simp) (by simp),
          String.append_assoc, String.append_assoc, String.append_assoc]
      rw [hassoc, normpath_abs_normal ((t :: ts) ++ (q :: qs))
        (fun x hx => (List.mem_append.mp hx).elim (hc x) (hs x))]

theorem map_id_of_mem {l : List Char} {f : Char → Char} (h : ∀ c ∈ l, f c = c) :
    l.map f = l := by
  induction l with
  | nil => rfl
  | cons c cl ih =>
    rw [List.map_cons, h c (by simp), ih (fun x hx => h x (List.mem_cons_of_mem _ hx))]

theorem replaceBackslash_id (s : String) (h : '\\' ∉ s.data) : replaceBackslash s = s := by
  apply String.ext
  show s.data.map (fun c => if c = '\\' then '/' else c) = s.data
  refine map_id_of_mem (fun c hc => if_neg (fun hq => h ?_))
  rw [← hq]
  exact hc

theorem pathJoin_empty_left (b : String) : pathJoin "" b = b := by
  unfold pathJoin
  by_cases hb : strStartsWith b "/" = true
  · rw [if_pos hb]
  · rw [if_neg hb, if_pos (Or.inl rfl), string_empty_append]

theorem filter_splitSlash_abs (segs : List String) (h : ∀ s ∈ segs, NormalSeg s) :
    (splitSlash ("/" ++ joinSlash segs)).filter (fun x => x ≠ "") = segs := by
  cases segs with
  | nil => decide
  | cons s rest =>
    rw [splitSlash_abs (s :: rest) (by simp) (fun x hx => (h x hx).2.2.2.1)]
    rw [show List.filter (fun x => decide (x ≠ "")) ("" :: s :: rest)
        = List.filter (fun x => decide (x ≠ "")) (s :: rest) by simp]
    exact List.filter_eq_self.mpr (fun a ha => by simp [(h a ha).1])

theorem commonPrefixLen_self_append (l extra : List String) :
    commonPrefixLen l (l ++ extra) = l.length := by
  induction l with
  | nil => rfl
  | cons a as ih => simp [commonPrefixLen, ih]

theorem relpath_strip (cwdSegs pSegs qSegs : List String)
    (hc : ∀ s ∈ cwdSegs, NormalSeg s) (hp : ∀ s ∈ pSegs, NormalSeg s)
    (hq : ∀ s ∈ qSegs, NormalSeg s) (hq0 : qSegs ≠ []) :
    relpath ("/" ++ joinSlash cwdSegs) (joinSlash (pSegs ++ qSegs)) (joinSlash pSegs)
      = joinSlash qSegs := by
  have hpq : ∀ s ∈ pSegs ++ qSegs, NormalSeg s :=
    fun x hx => (List.mem_append.mp hx).elim (hp x) (hq x)
  have hcp : ∀ s ∈ cwdSegs ++ pSegs, NormalSeg s :=
    fun x hx => (List.mem_append.mp hx).elim (hc x) (hp x)
  have hcpq : ∀ s ∈ cwdSegs ++ (pSegs ++ qSegs), NormalSeg s :=
    fun x hx => (List.mem_append.mp hx).elim (hc x) (hpq x)
  have hstart : relpathParts ("/" ++ joinSlash cwdSegs) (joinSlash pSegs)
      = cwdSegs ++ pSegs := by
    unfold relpathParts
    rw [abspath_clean cwdSegs pSegs hc hp, filter_splitSlash_abs _ hcp]
  have hpath : relpathParts ("/" ++ joinSlash cwdSegs) (joinSlash (pSegs ++ qSegs))
      = (cwdSegs ++ pSegs) ++ qSegs := by
    unfold relpathParts
    rw [abspath_clean cwdSegs (pSegs ++ qSegs) hc hpq, filter_splitSlash_abs _ hcpq,
      ← List.append_assoc]
  have hsegs : relpathSegs (cwdSegs ++ pSegs) ((cwdSegs ++ pSegs) ++ qSegs) = qSegs := by
    unfold relpathSegs
    rw [commonPrefixLen_self_append, Nat.sub_self, List.drop_left]
    simp
  unfold relpath
  rw [hstart, hpath, hsegs, if_neg hq0]

/-! ## Lemmas: character case maps and commutation with path cleaning -/

theorem char_toNat_ofNat (n : Nat) (h : n.isValidChar) : (Char.ofNat n).toNat = n := by
  simp [Char.ofNat, h, Char.ofNatAux, Char.toNat, UInt32.toNat]

theorem toUpper_eq_of_notin (c t : Char) (ht : ¬(t.toNat ≥ 65 ∧ t.toNat ≤ 90))
    (h : c.toUpper = t) : c = t := by
  by_cases hc : c.toNat ≥ 97 ∧ c.toNat ≤ 122
  · exfalso
    have hup : c.toUpper = Char.ofNat (c.toNat - 32) := by
      simp only [Char.toUpper]
      rw [if_pos hc]
    have hnat : (Char.ofNat (c.toNat - 32)).toNat = c.toNat - 32 :=
      char_toNat_ofNat _ (Or.inl (by omega))
    rw [hup] at h
    apply ht
    rw [← h, hnat]
    omega
  · have hup : c.toUpper = c := by
      simp only [Char.toUpper]
      rw [if_neg hc]
    rw [hup] at h
    exact h

theorem toLower_eq_of_notin (c t : Char) (ht : ¬(t.toNat ≥ 97 ∧ t.toNat ≤ 122))
    (h : c.toLower = t) : c = t := by
  by_cases hc : c.toNat ≥ 65 ∧ c.toNat ≤ 90
  · exfalso
    have hlow : c.toLower = Char.ofNat (c.toNat + 32) := by
      simp only [Char.toLower]
      rw [if_pos hc]
    have hnat : (Char.ofNat (c.toNat + 32)).toNat = c.toNat + 32 :=
      char_toNat_ofNat _ (Or.inl (by omega))
    rw [hlow] at h
    apply ht
    rw [← h, hnat]
    omega
  · have hlow : c.toLower = c := by
      simp only [Char.toLower]
      rw [if_neg hc]
    rw [hlow] at h
    exact h

theorem toLower_toUpper (c : Char) : c.toUpper.toLower = c.toLower := by
  by_cases hc : c.toNat ≥ 97 ∧ c.toNat ≤ 122
  · have hup : c.toUpper = Char.ofNat (c.toNat - 32) := by
      simp only [Char.toUpper]
      rw [if_pos hc]
    have hnat : (Char.ofNat (c.toNat - 32)).toNat = c.toNat - 32 :=
      char_toNat_ofNat _ (Or.inl (by omega))
    have hlow : (Char.ofNat (c.toNat - 32)).toLower
        = Char.ofNat ((Char.ofNat (c.toNat - 32)).toNat + 32) := by
      simp only [Char.toLower]
      rw [if_pos (by rw [hnat]; omega)]
    have hcl : c.toLower = c := by
      simp only [Char.toLower]
      rw [if_neg (by omega)]
    rw [hup, hlow, hnat, hcl, show c.toNat - 32 + 32 = c.toNat by omega, Char.ofNat_toNat]
  · have hup : c.toUpper = c := by
      simp only [Char.toUpper]
      rw [if_neg hc]
    rw [hup]

theorem toLower_idem (c : Char) : c.toLower.toLower = c.toLower := by
  by_cases hc : c.toNat ≥ 65 ∧ c.toNat ≤ 90
  · have hlow : c.toLower = Char.ofNat (c.toNat + 32) := by
      simp only [Char.toLower]
      rw [if_pos hc]
    have hnat : (Char.ofNat (c.toNat + 32)).toNat = c.toNat + 32 :=
      char_toNat_ofNat _ (Or.inl (by omega))
    rw [hlow]
    simp only [Char.toLower]
    rw [if_neg (by rw [hnat]; omega)]
  · have hlow : c.toLower = c := by
      simp only [Char.toLower]
      rw [if_neg hc]
    rw [hlow]
    exact hlow

theorem charMapOK_toUpper : CharMapOK Char.toUpper := by
  refine ⟨by decide, ?_, by decide, ?_, by decide, ?_⟩
  · exact fun c h => toUpper_eq_of_notin c '/' (by decide) h
  · exact fun c h => toUpper_eq_of_notin c '.' (by decide) h
  · exact fun c h => toUpper_eq_of_notin c '\\' (by decide) h

theorem charMapOK_toLower : CharMapOK Char.toLower := by
  refine ⟨by decide, ?_, by decide, ?_, by decide, ?_⟩
  · exact fun c h => toLower_eq_of_notin c '/' (by decide) h
  · exact fun c h => toLower_eq_of_notin c '.' (by decide) h
  · exact fun c h => toLower_eq_of_notin c '\\' (by decide) h

theorem strMap_data (f : Char → Char) (s : String) : (strMap f s).data = s.data.map f := rfl

theorem strMap_append (f : Char → Char) (a b : String) :
    strMap f (a ++ b) = strMap f a ++ strMap f b :=
  String.ext (by simp [strMap_data, String.data_append])

theorem strMap_eq_empty_iff (f : Char → Char) (s : String) : strMap f s = "" ↔ s = "" := by
  rw [string_eq_empty_iff, string_eq_empty_iff, strMap_data]
  simp

theorem list_map_eq_cons_inv {f : Char → Char} {l : List Char} {c : Char} {r : List Char}
    (h : l.map f = c :: r) : ∃ a ra, l = a :: ra ∧ f a = c ∧ ra.map f = r := by
  cases l with
  | nil => cases h
  | cons a ra =>
    rw [List.map_cons] at h
    injection h with h1 h2
    exact ⟨a, ra, rfl, h1, h2⟩

theorem strMap_eq_dot_iff {f : Char → Char} (hf : CharMapOK f) (s : String) :
    strMap f s = "." ↔ s = "." := by
  constructor
  · intro hs
    have hd : s.data.map f = ['.'] := by
      have h2 := congrArg String.data hs
      simpa [strMap_data] using h2
    obtain ⟨a, ra, hl, hfa, hra⟩ := list_map_eq_cons_inv hd
    have hra2 : ra = [] := by simpa using hra
    apply String.ext
    rw [hl, hra2, hf.dot_inv a hfa]
  · intro hs
    subst hs
    exact String.ext (by simp [strMap_data, hf.dot])

theorem strMap_eq_dotdot_iff {f : Char → Char} (hf : CharMapOK f) (s : String) :
    strMap f s = ".." ↔ s = ".." := by
  constructor
  · intro hs
    have hd : s.data.map f = ['.', '.'] := by
      have h2 := congrArg String.data hs
      simpa [strMap_data] using h2
    obtain ⟨a, ra, hl, hfa, hra⟩ := list_map_eq_cons_inv hd
    obtain ⟨b, rb, hlb, hfb, hrb⟩ := list_map_eq_cons_inv hra
    have hrb2 : rb = [] := by simpa using hrb
    apply String.ext
    rw [hl, hlb, hrb2, hf.dot_inv a hfa, hf.dot_inv b hfb]
  · intro hs
    subst hs
    exact String.ext (by simp [strMap_data, hf.dot])

theorem splitSlashAux_map (f : Char → Char) (hf : CharMapOK f) (cs : List Char) :
    ∀ acc : List Char,
      splitSlashAux (cs.map f) (acc.map f) = (splitSlashAux cs acc).map (strMap f) := by
  induction cs with
  | nil =>
    intro acc
    simp only [List.map_nil, splitSlashAux, List.map_cons]
    rw [show String.mk ((acc.map f).reverse) = strMap f (String.mk acc.reverse) from
      String.ext (by simp [strMap_data])]
  | cons c cs ih =>
    intro acc
    by_cases hc : c = '/'
    · subst hc
      rw [List.map_cons, hf.slash]
      simp only [splitSlashAux, if_pos rfl, List.map_cons]
      have h0 := ih []
      simp only [List.map_nil] at h0
      rw [h0, show String.mk ((acc.map f).reverse) = strMap f (String.mk acc.reverse) from
        String.ext (by simp [strMap_data])]
      simp
    · have hfc : f c ≠ '/' := fun hq => hc (hf.slash_inv c hq)
      rw [List.map_cons]
      simp only [splitSlashAux, if_neg hc, if_neg hfc]
      rw [show f c :: acc.map f = (c :: acc).map f from rfl, ih (c :: acc)]

theorem splitSlash_map (f : Char → Char) (hf : CharMapOK f) (s : String) :
    splitSlash (strMap f s) = (splitSlash s).map (strMap f) := by
  unfold splitSlash
  rw [strMap_data]
  have h := splitSlashAux_map f hf s.data []
  simpa using h

theorem isPrefixOf_replicate_slash_map (f : Char → Char) (hf : CharMapOK f) (n : Nat) :
    ∀ l : List Char,
      List.isPrefixOf (List.replicate n '/') (l.map f)
        = List.isPrefixOf (List.replicate n '/') l := by
  induction n with
  | zero => intro l; simp [List.isPrefixOf]
  | succ n ih =>
    intro l
    cases l with
    | nil => simp [List.replicate_succ, List.isPrefixOf]
    | cons c cl =>
      rw [List.map_cons, List.replicate_succ]
      have hbeq : ('/' == f c) = ('/' == c) := by
        by_cases hc : c = '/'
        · subst hc
          rw [hf.slash]
        · have hfc : f c ≠ '/' := fun hq => hc (hf.slash_inv c hq)
          simp [beq_iff_eq, Ne.symm hc, Ne.symm hfc]
      simp [List.isPrefixOf, hbeq, ih cl]

theorem initialSlashCount_map (f : Char → Char) (hf : CharMapOK f) (s : String) :
    initialSlashCount (strMap f s) = initialSlashCount s := by
  unfold initialSlashCount strStartsWith
  rw [strMap_data,
    show ("/" : String).data = List.replicate 1 '/' from rfl,
    show ("//" : String).data = List.replicate 2 '/' from rfl,
    show ("///" : String).data = List.replicate 3 '/' from rfl,
    isPrefixOf_replicate_slash_map f hf 1 s.data,
    isPrefixOf_replicate_slash_map f hf 2 s.data,
    isPrefixOf_replicate_slash_map f hf 3 s.data]

theorem dropLast_map_str (f : String → String) (l : List String) :
    (l.map f).dropLast = l.dropLast.map f := by
  induction l with
  | nil => rfl
  | cons a l ih =>
    cases l with
    | nil => rfl
    | cons b bs =>
      simp only [List.map_cons, List.dropLast_cons₂, ← ih, List.map_cons]

theorem normSegs_map (f : Char → Char) (hf : CharMapOK f) (i : Bool) (comps : List String) :
    ∀ acc : List String,
      normSegs i (acc.map (strMap f)) (comps.map (strMap f))
        = (normSegs i acc comps).map (strMap f) := by
  induction comps with
  | nil => intro acc; simp [normSegs]
  | cons c rest ih =>
    intro acc
    rw [List.map_cons, normSegs_cons, normSegs_cons]
    have he : (strMap f c = "" ∨ strMap f c = ".") ↔ (c = "" ∨ c = ".") := by
      rw [strMap_eq_empty_iff, strMap_eq_dot_iff hf]
    by_cases h1 : c = "" ∨ c = "."
    · rw [if_pos (he.mpr h1), if_pos h1, ih]
    · rw [if_neg (fun hq => h1 (he.mp hq)), if_neg h1]
      have hlast : ((acc.map (strMap f)).getLast? = some "..") ↔ (acc.getLast? = some "..") := by
        rw [List.getLast?_map]
        cases acc.getLast? with
        | none => simp
        | some y => simp [strMap_eq_dotdot_iff hf]
      have he2 : (strMap f c ≠ ".." ∨ (i = false ∧ acc.map (strMap f) = [])
            ∨ (acc.map (strMap f)).getLast? = some "..")
          ↔ (c ≠ ".." ∨ (i = false ∧ acc = []) ∨ acc.getLast? = some "..") := by
        rw [hlast]
        constructor
        · rintro (hx | ⟨hi, hx⟩ | hx)
          · exact Or.inl (fun hq => hx ((strMap_eq_dotdot_iff hf c).mpr hq))
          · exact Or.inr (Or.inl ⟨hi, by simpa using hx⟩)
          · exact Or.inr (Or.inr hx)
        · rintro (hx | ⟨hi, hx⟩ | hx)
          · exact Or.inl (fun hq => hx ((strMap_eq_dotdot_iff hf c).mp hq))
          · exact Or.inr (Or.inl ⟨hi, by simp [hx]⟩)
          · exact Or.inr (Or.inr hx)
      by_cases h2 : c ≠ ".." ∨ (i = false ∧ acc = []) ∨ acc.getLast? = some ".."
      · rw [if_pos (he2.mpr h2), if_pos h2,
          show acc.map (strMap f) ++ [strMap f c] = (acc ++ [c]).map (strMap f) by simp,
          ih (acc ++ [c])]
      · rw [if_neg (fun hq => h2 (he2.mp hq)), if_neg h2, dropLast_map_str, ih acc.dropLast]

theorem joinSlash_map (f : Char → Char) (hf : CharMapOK f) (segs : List String) :
    joinSlash (segs.map (strMap f)) = strMap f (joinSlash segs) := by
  induction segs with
  | nil => rfl
  | cons s rest ih =>
    cases rest with
    | nil => rfl
    | cons b bs =>
      rw [List.map_cons, joinSlash_cons _ _ (by simp), joinSlash_cons s (b :: bs) (by simp),
        strMap_append, strMap_append, ih,
        show strMap f "/" = "/" from String.ext (by simp [strMap_data, hf.slash])]

theorem normpath_map (f : Char → Char) (hf : CharMapOK f) (p : String) :
    normpath (strMap f p) = strMap f (normpath p) := by
  by_cases hp : p = ""
  · subst hp
    show normpath "" = strMap f (normpath "")
    rw [show normpath "" = "." from rfl]
    exact (String.ext (by simp [strMap_data, hf.dot])).symm
  · have hne : strMap f p ≠ "" := fun hq => hp ((strMap_eq_empty_iff f p).mp hq)
    unfold normpath
    rw [if_neg hne, if_neg hp, initialSlashCount_map f hf, splitSlash_map f hf]
    unfold normpathCore
    have hsegs : normSegs ((initialSlashCount p) != 0) [] ((splitSlash p).map (strMap f))
        = (normSegs ((initialSlashCount p) != 0) [] (splitSlash p)).map (strMap f) := by
      have h := normSegs_map f hf ((initialSlashCount p) != 0) (splitSlash p) []
      simpa using h
    rw [hsegs, joinSlash_map f hf]
    have hdist : String.mk (List.replicate (initialSlashCount p) '/')
          ++ strMap f (joinSlash (normSegs ((initialSlashCount p) != 0) [] (splitSlash p)))
        = strMap f (String.mk (List.replicate (initialSlashCount p) '/')
          ++ joinSlash (normSegs ((initialSlashCount p) != 0) [] (splitSlash p))) := by
      apply String.ext
      simp [strMap_data, String.data_append, List.map_replicate, hf.slash]
    rw [hdist]
    generalize String.mk (List.replicate (initialSlashCount p) '/')
      ++ joinSlash (normSegs ((initialSlashCount p) != 0) [] (splitSlash p)) = R
    by_cases hr : R = ""
    · rw [if_pos hr, if_pos ((strMap_eq_empty_iff f R).mpr hr)]
      exact (String.ext (by simp [strMap_data, hf.dot])).symm
    · rw [if_neg hr, if_neg (fun hq => hr ((strMap_eq_empty_iff f R).mp hq))]

theorem replaceBackslash_strMap_comm (f : Char → Char) (hf : CharMapOK f) (s : String) :
    replaceBackslash (strMap f s) = strMap f (replaceBackslash s) := by
  apply String.ext
  simp only [replaceBackslash, strMap_data, List.map_map]
  congr 1
  funext c
  show (fun c => if c = '\\' then '/' else c) (f c) = f (if c = '\\' then '/' else c)
  by_cases hc : c = '\\'
  · subst hc
    rw [hf.bslash]
    simp [hf.slash]
  · have hfc : f c ≠ '\\' := fun hq => hc (hf.bslash_inv c hq)
    simp [hc, hfc]

theorem casefold_strUpper (s : String) : casefold (strUpper s) = casefold s := by
  apply String.ext
  simp only [casefold, strUpper, strMap_data, List.map_map]
  congr 1
  funext c
  simp [Function.comp, toLower_toUpper]

theorem casefold_strLower (s : String) : casefold (strLower s) = casefold s := by
  apply String.ext
  simp only [casefold, strLower, strMap_data, List.map_map]
  congr 1
  funext c
  simp [Function.comp, toLower_idem]

theorem cleanPath_casefold (p : String) : cleanPath (casefold p) = cleanPath p := by
  unfold cleanPath casefold
  rw [normpath_map Char.toLower charMapOK_toLower p,
    replaceBackslash_strMap_comm Char.toLower charMapOK_toLower (normpath p)]
  apply String.ext
  simp only [strMap_data, List.map_map]
  congr 1
  funext c
  simp [Function.comp, toLower_idem]

theorem cleanPath_congr (a b : String) (h : casefold a = casefold b) :
    cleanPath a = cleanPath b := by
  rw [← cleanPath_casefold a, ← cleanPath_casefold b, h]

theorem casefold_replaceBackslash_strUpper (p : String) :
    casefold (replaceBackslash (strUpper p)) = casefold (replaceBackslash p) := by
  rw [show strUpper p = strMap Char.toUpper p from rfl,
    replaceBackslash_strMap_comm Char.toUpper charMapOK_toUpper p]
  exact casefold_strUpper (replaceBackslash p)

theorem casefold_replaceBackslash_strLower (p : String) :
    casefold (replaceBackslash (strLower p)) = casefold (replaceBackslash p) := by
  rw [show strLower p = strMap Char.toLower p from rfl,
    replaceBackslash_strMap_comm Char.toLower charMapOK_toLower p]
  exact casefold_strLower (replaceBackslash p)

/-! ## Lemmas: dicts and the chain -/

theorem mem_dictInsert {α : Type} {k : String} {v : α} {p : String × α} :
    ∀ {d : List (String × α)}, p ∈ dictInsert k v d → p = (k, v) ∨ p ∈ d := by
  intro d
  induction d with
  | nil =>
    intro h
    simp only [dictInsert, List.mem_singleton] at h
    exact Or.inl h
  | cons kv rest ih =>
    obtain ⟨k', v'⟩ := kv
    intro h
    by_cases hk : k' = k
    · rw [show dictInsert k v ((k', v') :: rest) = (k', v) :: rest by
        simp [dictInsert, hk]] at h
      rcases List.mem_cons.mp h with h1 | h2
      · exact Or.inl (by rw [hk] at h1; exact h1)
      · exact Or.inr (List.mem_cons_of_mem _ h2)
    · rw [show dictInsert k v ((k', v') :: rest) = (k', v') :: dictInsert k v rest by
        simp [dictInsert, hk]] at h
      rcases List.mem_cons.mp h with h1 | h2
      · exact Or.inr (List.mem_cons.mpr (Or.inl h1))
      · rcases ih h2 with h3 | h4
        · exact Or.inl h3
        · exact Or.inr (List.mem_cons_of_mem _ h4)

theorem mem_buildDict {α : Type} {l : List (String × α)} {p : String × α}
    (h : p ∈ buildDict l) : p ∈ l := by
  suffices h2 : ∀ acc, p ∈ List.foldl (fun d kv => dictInsert kv.1 kv.2 d) acc l
      → p ∈ acc ∨ p ∈ l by
    rcases h2 [] h with h3 | h3
    · cases h3
    · exact h3
  intro acc
  clear h
  induction l generalizing acc with
  | nil => intro hh; exact Or.inl hh
  | cons kv rest ih =>
    intro hh
    rw [List.foldl_cons] at hh
    rcases ih (dictInsert kv.1 kv.2 acc) hh with h3 | h3
    · rcases mem_dictInsert h3 with h4 | h4
      · refine Or.inr (List.mem_cons.mpr (Or.inl ?_))
        rw [h4]
      · exact Or.inl h4
    · exact Or.inr (List.mem_cons_of_mem _ h3)

theorem dictLookup_mem {α : Type} {d : List (String × α)} {k : String} {v : α}
    (h : dictLookup d k = some v) : (k, v) ∈ d := by
  unfold dictLookup at h
  cases hf : d.find? (fun kv => kv.1 = k) with
  | none => rw [hf] at h; cases h
  | some kv =>
    rw [hf] at h
    have hv : kv.2 = v := by simpa using h
    have hmem := List.mem_of_find?_eq_some hf
    have hpred := List.find?_some hf
    have hk : kv.1 = k := by simpa using hpred
    have hkv : kv = (k, v) := by
      obtain ⟨a, b⟩ := kv
      simp only at hv hk
      rw [hv, hk]
    rw [← hkv]
    exact hmem

theorem chainGetFile_nil (name : String) : chainGetFile [] name = none := rfl

theorem chainGetFile_cons (sys : MemberFS) (pfx : String) (rest : List (MemberFS × String))
    (name : String) :
    chainGetFile ((sys, pfx) :: rest) name
      = match sys.getFile (replaceBackslash (pathJoin pfx name)) with
        | some fi => some ⟨replaceBackslash (pathJoin pfx name), fi⟩
        | none => chainGetFile rest name := rfl

theorem chainGetFile_cons_some (sys : MemberFS) (pfx : String)
    (rest : List (MemberFS × String)) (name : String) (fi : InnerFile)
    (h : sys.getFile (replaceBackslash (pathJoin pfx name)) = some fi) :
    chainGetFile ((sys, pfx) :: rest) name
      = some ⟨replaceBackslash (pathJoin pfx name), fi⟩ := by
  rw [chainGetFile_cons, h]

theorem chainGetFile_cons_none (sys : MemberFS) (pfx : String)
    (rest : List (MemberFS × String)) (name : String)
    (h : sys.getFile (replaceBackslash (pathJoin pfx name)) = none) :
    chainGetFile ((sys, pfx) :: rest) name = chainGetFile rest name := by
  rw [chainGetFile_cons, h]

theorem chainGetFile_first_match (pre post : List (MemberFS × String)) (A : MemberFS)
    (pfxA name : String) (fi : InnerFile)
    (hpre : ∀ m ∈ pre, m.1.getFile (replaceBackslash (pathJoin m.2 name)) = none)
    (hA : A.getFile (replaceBackslash (pathJoin pfxA name)) = some fi) :
    chainGetFile (pre ++ (A, pfxA) :: post) name
      = some ⟨replaceBackslash (pathJoin pfxA name), fi⟩ := by
  induction pre with
  | nil =>
    rw [List.nil_append]
    exact chainGetFile_cons_some _ _ _ _ _ hA
  | cons m pre' ih =>
    obtain ⟨sys, pfx⟩ := m
    rw [List.cons_append, chainGetFile_cons_none _ _ _ _ (hpre (sys, pfx) (by simp))]
    exact ih (fun x hx => hpre x (List.mem_cons_of_mem _ hx))

theorem chainGetFile_all_none (systems : List (MemberFS × String)) (name : String)
    (h : ∀ m ∈ systems, m.1.getFile (replaceBackslash (pathJoin m.2 name)) = none) :
    chainGetFile systems name = none := by
  induction systems with
  | nil => rfl
  | cons m rest ih =>
    obtain ⟨sys, pfx⟩ := m
    rw [chainGetFile_cons_none _ _ _ _ (h (sys, pfx) (by simp))]
    exact ih (fun x hx => h x (List.mem_cons_of_mem _ hx))

theorem chainWalkRepeat_nil (cwd folder : String) : chainWalkRepeat cwd [] folder = [] := rfl

theorem chainWalkRepeat_cons (cwd : String) (sys : MemberFS) (pfx : String)
    (rest : List (MemberFS × String)) (folder : String) :
    chainWalkRepeat cwd ((sys, pfx) :: rest) folder
      = (sys.walkFolder (replaceBackslash (pathJoin pfx folder))).map
          (fun f => (⟨replaceBackslash (relpath cwd f.path pfx), f⟩ : ChainFile))
        ++ chainWalkRepeat cwd rest folder := rfl

/-! ## Claim C1 -/

/-- Claim C1 counterexample: with root `/data` and the constraint on, the
request `../data2/x` resolves to `/data2/x` — outside the root at any path
boundary — yet `_resolve_path` accepts it, because the `startswith` check sees
the sibling directory name `/data2` as a string extension of `/data`.  So the
claim that paths outside the root are always rejected is false. -/
theorem C1_counterexample :
    rawResolvePath "/" ⟨"/data", true⟩ "../data2/x" = some "/data2/x" ∧
    withinRootBoundary "/data" "/data2/x" = false := by
  constructor
  · decide
  · decide

/-- Claim C1 (amended): with the traversal constraint on, `_resolve_path`
rejects exactly those requests whose resolved absolute path lacks the root as
a raw *string* prefix.  Hence: every path within the root (at a path-segment
boundary) is accepted; every rejected path is genuinely outside the root; a
path whose resolved form does not extend the root string (such as the spec's
`../outside.txt`) raises `PathEscape`; with the constraint off nothing is
rejected; and `_get_file` reports `PathEscape` exactly when `_resolve_path`
rejects.  Paths outside the root that extend the root string (sibling
directories like `/data2`) are *accepted*, per the counterexample. -/
theorem C1_raw_constraint_amended (cwd : String) (fs : RawFS) (name : String) :
    (withinRootBoundary fs.path (abspath cwd (pathJoin fs.path name)) = true →
      rawResolvePath cwd fs name = some (abspath cwd (pathJoin fs.path name))) ∧
    (rawResolvePath cwd fs name = none →
      fs.constrain_path = true ∧
      withinRootBoundary fs.path (abspath cwd (pathJoin fs.path name)) = false) ∧
    (fs.constrain_path = true →
      strStartsWith (abspath cwd (pathJoin fs.path name)) fs.path = false →
      rawResolvePath cwd fs name = none) ∧
    (fs.constrain_path = false →
      rawResolvePath cwd fs name = some (abspath cwd (pathJoin fs.path name))) ∧
    (∀ isfile : String → Bool,
      (rawGetFile cwd isfile fs name = RawResult.pathEscape
        ↔ rawResolvePath cwd fs name = none)) := by
  have himp : withinRootBoundary fs.path (abspath cwd (pathJoin fs.path name)) = true →
      strStartsWith (abspath cwd (pathJoin fs.path name)) fs.path = true := by
    intro h
    unfold withinRootBoundary at h
    rw [Bool.or_eq_true] at h
    rcases h with h | h
    · have he : abspath cwd (pathJoin fs.path name) = fs.path := by simpa using h
      rw [he]
      unfold strStartsWith
      exact List.isPrefixOf_iff_prefix.mpr (List.prefix_refl _)
    · unfold strStartsWith at h ⊢
      have hpre := List.isPrefixOf_iff_prefix.mp h
      rw [String.data_append] at hpre
      exact List.isPrefixOf_iff_prefix.mpr ((List.prefix_append _ _).trans hpre)
  refine ⟨?_, ?_, ?_, ?_, ?_⟩
  · intro h
    unfold rawResolvePath
    rw [himp h]
    simp
  · intro h
    unfold rawResolvePath at h
    by_cases hcond : (fs.constrain_path
        && !(strStartsWith (abspath cwd (pathJoin fs.path name)) fs.path)) = true
    · rw [Bool.and_eq_true] at hcond
      obtain ⟨h1, h2⟩ := hcond
      have h2' : strStartsWith (abspath cwd (pathJoin fs.path name)) fs.path = false := by
        simpa using h2
      refine ⟨h1, ?_⟩
      cases hwr : withinRootBoundary fs.path (abspath cwd (pathJoin fs.path name)) with
      | false => rfl
      | true =>
        have := himp hwr
        rw [h2'] at this
        cases this
    · rw [if_neg (fun hq => hcond hq)] at h
      cases h
  · intro hcp hsw
    unfold rawResolvePath
    rw [if_pos (by rw [hcp, hsw]; rfl)]
  · intro hcp
    unfold rawResolvePath
    rw [hcp]
    simp
  · intro isfile
    constructor
    · intro h
      cases hr : rawResolvePath cwd fs name with
      | none => rfl
      | some a =>
        unfold rawGetFile at h
        rw [hr] at h
        have h2 : (if isfile a = true
            then RawResult.found ⟨replaceBackslash name, replaceBackslash name⟩
            else RawResult.notFound) = RawResult.pathEscape := h
        by_cases hf : isfile a = true
        · rw [if_pos hf] at h2
          cases h2
        · rw [if_neg hf] at h2
          cases h2
    · intro h
      unfold rawGetFile
      rw [h]

/-- Witness for C1's amended theorem: `sub/f.txt` under root `/data` is within
the root and accepted; `../outside.txt` resolves to `/outside.txt`, loses the
string prefix, and is rejected with `PathEscape`. -/
theorem C1_raw_constraint_amended_witness :
    (withinRootBoundary "/data" (abspath "/" (pathJoin "/data" "sub/f.txt")) = true ∧
      rawResolvePath "/" ⟨"/data", true⟩ "sub/f.txt" = some "/data/sub/f.txt") ∧
    (strStartsWith (abspath "/" (pathJoin "/data" "../outside.txt")) "/data" = false ∧
      rawResolvePath "/" ⟨"/data", true⟩ "../outside.txt" = none) := by
  constructor
  · refine ⟨by decide, ?_⟩
    have h := (C1_raw_constraint_amended "/" ⟨"/data", true⟩ "sub/f.txt").1 (by decide)
    rw [h]
    decide
  · refine ⟨by decide, ?_⟩
    exact (C1_raw_constraint_amended "/" ⟨"/data", true⟩ "../outside.txt").2.2.1 rfl (by decide)

/-! ## Claim C2 -/

/-- Claim C2: `FileSystemChain._get_file` returns a `File` wrapping the hit of
the first member (in list order) that resolves the joined name — the result
does not depend on the members after it — and returns `FileNotFoundError`
(modelled `none`) exactly when asked after every member misses. -/
theorem C2_chain_priority (name : String) :
    (∀ (pre post : List (MemberFS × String)) (A : MemberFS) (pfxA : String) (fi : InnerFile),
      (∀ m ∈ pre, m.1.getFile (replaceBackslash (pathJoin m.2 name)) = none) →
      A.getFile (replaceBackslash (pathJoin pfxA name)) = some fi →
      chainGetFile (pre ++ (A, pfxA) :: post) name
        = some ⟨replaceBackslash (pathJoin pfxA name), fi⟩) ∧
    (∀ systems : List (MemberFS × String),
      (∀ m ∈ systems, m.1.getFile (replaceBackslash (pathJoin m.2 name)) = none) →
      chainGetFile systems name = none) :=
  ⟨fun pre post A pfxA fi hpre hA => chainGetFile_first_match pre post A pfxA name fi hpre hA,
   fun systems h => chainGetFile_all_none systems name h⟩

/-- Witness for C2: in the chain `[memberNone, memberA, memberB]`, looking up
`x` yields `memberA`'s file (payload tag `A`), and a chain of misses yields
`none`. -/
theorem C2_chain_priority_witness :
    chainGetFile [(memberNone, ""), (memberA, ""), (memberB, "")] "x"
      = some ⟨"x", ⟨"x", "A"⟩⟩ ∧
    chainGetFile [(memberNone, "")] "zzz" = none := by
  constructor
  · exact (C2_chain_priority "x").1 [(memberNone, "")] [(memberB, "")] memberA "" ⟨"x", "A"⟩
      (by
        intro m hm
        rw [List.mem_singleton] at hm
        subst hm
        rfl)
      rfl
  · exact (C2_chain_priority "zzz").2 [(memberNone, "")]
      (by
        intro m hm
        rw [List.mem_singleton] at hm
        subst hm
        rfl)

theorem dedupCasefold_nil (done : List String) : dedupCasefold done [] = [] := rfl

theorem dedupCasefold_cons (done : List String) (f : ChainFile) (rest : List ChainFile) :
    dedupCasefold done (f :: rest)
      = if casefold f.path ∈ done then dedupCasefold done rest
        else f :: dedupCasefold (casefold f.path :: done) rest := rfl

/-! ## Claim C4 -/

/-- Claim C4 counterexample: a chain member scoped with prefix `maps/` exposes
`maps/de_dust.bsp` via `lookup('de_dust.bsp')`, but the returned `File`'s path
is the prefix-joined `maps/de_dust.bsp`, not the re-rooted `de_dust.bsp` the
claim asserts. -/
theorem C4_counterexample :
    chainGetFile [(memberMaps, "maps/")] "de_dust.bsp"
      = some ⟨"maps/de_dust.bsp", ⟨"maps/de_dust.bsp", "bsp"⟩⟩ ∧
    ("maps/de_dust.bsp" : String) ≠ "de_dust.bsp" := by
  constructor
  · decide
  · decide

/-- Claim C4 (amended): Files yielded by chain traversal
(`walk_folder_repeat`, and hence `walk_folder`) do carry the member path
re-rooted at the chain's root (the prefix is stripped via `os.path.relpath`),
but a `File` returned by chain lookup (`_get_file`) carries the prefix-joined
`full_name`, with the prefix still present. -/
theorem C4_prefix_strip_amended
    (cwdSegs pfxSegs qSegs : List String) (sys : MemberFS)
    (folder name d : String) (fi : InnerFile)
    (hcwd : ∀ s ∈ cwdSegs, NormalSeg s)
    (hp : ∀ s ∈ pfxSegs, NormalSeg s)
    (hq : ∀ s ∈ qSegs, NormalSeg s) (hq0 : qSegs ≠ []) :
    (sys.walkFolder (replaceBackslash (pathJoin (joinSlash pfxSegs) folder))
        = [⟨joinSlash (pfxSegs ++ qSegs), d⟩] →
      chainWalkRepeat ("/" ++ joinSlash cwdSegs) [(sys, joinSlash pfxSegs)] folder
        = [⟨joinSlash qSegs, ⟨joinSlash (pfxSegs ++ qSegs), d⟩⟩]) ∧
    (sys.getFile (replaceBackslash (pathJoin (joinSlash pfxSegs) name)) = some fi →
      chainGetFile [(sys, joinSlash pfxSegs)] name
        = some ⟨replaceBackslash (pathJoin (joinSlash pfxSegs) name), fi⟩) := by
  constructor
  · intro hw
    rw [chainWalkRepeat_cons, hw, chainWalkRepeat_nil, List.append_nil]
    simp only [List.map_cons, List.map_nil]
    rw [relpath_strip cwdSegs pfxSegs qSegs hcwd hp hq hq0,
      replaceBackslash_id _ (joinSlash_no_bslash qSegs hq)]
  · intro hg
    exact chainGetFile_cons_some _ _ _ _ _ hg

/-- Witness for C4's amended theorem: traversal under prefix `maps` re-roots
`maps/de_dust.bsp` as `de_dust.bsp`, while lookup under the same prefix keeps
the joined path `maps/de_dust.bsp`. -/
theorem C4_prefix_strip_amended_witness :
    chainWalkRepeat "/home" [(memberMaps, "maps")] ""
      = [⟨"de_dust.bsp", ⟨"maps/de_dust.bsp", "bsp"⟩⟩] ∧
    chainGetFile [(memberMaps, "maps")] "de_dust.bsp"
      = some ⟨"maps/de_dust.bsp", ⟨"maps/de_dust.bsp", "bsp"⟩⟩ := by
  have h := C4_prefix_strip_amended ["home"] ["maps"] ["de_dust.bsp"] memberMaps ""
    "de_dust.bsp" "bsp" ⟨"maps/de_dust.bsp", "bsp"⟩
    (by decide) (by decide) (by decide) (by decide)
  exact ⟨h.1 rfl, h.2 rfl⟩

/-! ## Claim C6 -/

/-- Claim C6: for a chain `[A, B]` whose members both contain the logical path
`x` (here: each member's walk yields one file, and the two paths agree up to
case folding), `walk_folder_repeat` yields `x` twice — once per containing
member, the `A`-origin (highest-priority) instance first — while `walk_folder`
yields it exactly once, keeping the `A`-origin instance and dropping the later
one whose case-folded path was already seen. -/
theorem C6_dedup_vs_repeat
    (cwdSegs qa qb : List String) (A B : MemberFS) (folder da db : String)
    (hcwd : ∀ s ∈ cwdSegs, NormalSeg s)
    (hqa : ∀ s ∈ qa, NormalSeg s) (hqa0 : qa ≠ [])
    (hqb : ∀ s ∈ qb, NormalSeg s) (hqb0 : qb ≠ [])
    (hA : A.walkFolder (replaceBackslash folder) = [⟨joinSlash qa, da⟩])
    (hB : B.walkFolder (replaceBackslash folder) = [⟨joinSlash qb, db⟩])
    (hcase : casefold (joinSlash qb) = casefold (joinSlash qa)) :
    chainWalkRepeat ("/" ++ joinSlash cwdSegs) [(A, ""), (B, "")] folder
      = [⟨joinSlash qa, ⟨joinSlash qa, da⟩⟩, ⟨joinSlash qb, ⟨joinSlash qb, db⟩⟩] ∧
    chainWalk ("/" ++ joinSlash cwdSegs) [(A, ""), (B, "")] folder
      = [⟨joinSlash qa, ⟨joinSlash qa, da⟩⟩] := by
  have hjoin : replaceBackslash (pathJoin "" folder) = replaceBackslash folder := by
    rw [pathJoin_empty_left]
  have hrelA : replaceBackslash (relpath ("/" ++ joinSlash cwdSegs) (joinSlash qa) "")
      = joinSlash qa := by
    have h := relpath_strip cwdSegs [] qa hcwd (by simp) hqa hqa0
    rw [List.nil_append] at h
    rw [show joinSlash ([] : List String) = "" from rfl] at h
    rw [h, replaceBackslash_id _ (joinSlash_no_bslash qa hqa)]
  have hrelB : replaceBackslash (relpath ("/" ++ joinSlash cwdSegs) (joinSlash qb) "")
      = joinSlash qb := by
    have h := relpath_strip cwdSegs [] qb hcwd (by simp) hqb hqb0
    rw [List.nil_append] at h
    rw [show joinSlash ([] : List String) = "" from rfl] at h
    rw [h, replaceBackslash_id _ (joinSlash_no_bslash qb hqb)]
  have hrepeat : chainWalkRepeat ("/" ++ joinSlash cwdSegs) [(A, ""), (B, "")] folder
      = [⟨joinSlash qa, ⟨joinSlash qa, da⟩⟩, ⟨joinSlash qb, ⟨joinSlash qb, db⟩⟩] := by
    rw [chainWalkRepeat_cons, hjoin, hA, chainWalkRepeat_cons, hjoin, hB, chainWalkRepeat_nil,
      List.append_nil]
    simp only [List.map_cons, List.map_nil]
    rw [hrelA, hrelB]
    rfl
  refine ⟨hrepeat, ?_⟩
  unfold chainWalk
  rw [hrepeat, dedupCasefold_cons, if_neg (List.not_mem_nil _), dedupCasefold_cons,
    if_pos (by
      rw [List.mem_singleton]
      show casefold (joinSlash qb) = casefold (joinSlash qa)
      exact hcase),
    dedupCasefold_nil]

/-- Witness for C6: members `memberA` (yields `x.txt`) and `memberB` (yields
`X.TXT`, the same logical path in different case): repeat-walk yields both in
priority order, dedup-walk yields only the `memberA` instance. -/
theorem C6_dedup_vs_repeat_witness :
    chainWalkRepeat "/home" [(memberA, ""), (memberB, "")] ""
      = [⟨"x.txt", ⟨"x.txt", "dataA"⟩⟩, ⟨"X.TXT", ⟨"X.TXT", "dataB"⟩⟩] ∧
    chainWalk "/home" [(memberA, ""), (memberB, "")] ""
      = [⟨"x.txt", ⟨"x.txt", "dataA"⟩⟩] := by
  have h := C6_dedup_vs_repeat ["home"] ["x.txt"] ["X.TXT"] memberA memberB "" "dataA" "dataB"
    (by decide) (by decide) (by decide) (by decide) (by decide) rfl rfl (by decide)
  exact ⟨h.1, h.2⟩

/-! ## Claim C3 -/

theorem strStartsWith_slash_map (f : Char → Char) (hf : CharMapOK f) (s : String) :
    strStartsWith (strMap f s) "/" = strStartsWith s "/" := by
  unfold strStartsWith
  rw [strMap_data, show ("/" : String).data = List.replicate 1 '/' from rfl,
    isPrefixOf_replicate_slash_map f hf 1 s.data]

theorem casefold_append (a b : String) : casefold (a ++ b) = casefold a ++ casefold b :=
  strMap_append _ _ _

theorem casefold_pathJoin_congr (a p q : String)
    (hpq : casefold p = casefold q)
    (hsw : strStartsWith p "/" = strStartsWith q "/") :
    casefold (pathJoin a p) = casefold (pathJoin a q) := by
  unfold pathJoin
  rw [hsw]
  by_cases h1 : strStartsWith q "/" = true
  · rw [if_pos h1, if_pos h1]
    exact hpq
  · rw [if_neg h1, if_neg h1]
    by_cases h2 : a = "" ∨ strEndsWith a "/" = true
    · rw [if_pos h2, if_pos h2, casefold_append, casefold_append, hpq]
    · rw [if_neg h2, if_neg h2, casefold_append, casefold_append, casefold_append,
        casefold_append, hpq]

theorem casefold_replaceBackslash_comm (x : String) :
    casefold (replaceBackslash x) = replaceBackslash (casefold x) :=
  (replaceBackslash_strMap_comm Char.toLower charMapOK_toLower x).symm

theorem virtualGetFile_congr_casefold (v : VirtualFS) (a b : String)
    (h : casefold a = casefold b) : virtualGetFile v a = virtualGetFile v b := by
  unfold virtualGetFile
  rw [cleanPath_congr a b h]

theorem chainGetFile_virtual_congr (systems : List (VirtualFS × String)) (p q : String)
    (hpq : casefold p = casefold q) (hsw : strStartsWith p "/" = strStartsWith q "/") :
    (chainGetFile (systems.map (fun sp => (memberOfVirtual sp.1, sp.2))) p).map ChainFile.inner
      = (chainGetFile (systems.map (fun sp => (memberOfVirtual sp.1, sp.2))) q).map
          ChainFile.inner := by
  induction systems with
  | nil => rfl
  | cons sp rest ih =>
    obtain ⟨v, pfx⟩ := sp
    rw [List.map_cons, chainGetFile_cons, chainGetFile_cons]
    have hfull : casefold (replaceBackslash (pathJoin pfx p))
        = casefold (replaceBackslash (pathJoin pfx q)) := by
      rw [casefold_replaceBackslash_comm, casefold_replaceBackslash_comm]
      exact congrArg replaceBackslash (casefold_pathJoin_congr pfx p q hpq hsw)
    have hm : (memberOfVirtual v).getFile (replaceBackslash (pathJoin pfx p))
        = (memberOfVirtual v).getFile (replaceBackslash (pathJoin pfx q)) := by
      show (virtualGetFile v _).map _ = (virtualGetFile v _).map _
      rw [virtualGetFile_congr_casefold v _ _ hfull]
    rw [hm]
    cases hg : (memberOfVirtual v).getFile (replaceBackslash (pathJoin pfx q)) with
    | none => exact ih
    | some fi => simp

/-- Claim C3 counterexample: `RawFileSystem` does no case folding of its own —
it delegates to the host's `os.path.isfile`.  On a case-sensitive host
containing exactly `/root/a.txt`, `lookup('a.txt')` succeeds while
`lookup('A.TXT')` raises `FileNotFoundError`, so the claim fails for the
`RawFileSystem` backend. -/
theorem C3_counterexample :
    rawGetFile "/" caseSensHost ⟨"/root", true⟩ "a.txt"
      = RawResult.found ⟨"a.txt", "a.txt"⟩ ∧
    rawGetFile "/" caseSensHost ⟨"/root", true⟩ "A.TXT" = RawResult.notFound := by
  constructor
  · decide
  · decide

/-- Claim C3 (amended): the index-backed backends are case-insensitive — for
`VirtualFileSystem` and `VPKFileSystem`, `lookup(p.upper())` and
`lookup(p.lower())` return literally the same `File` as `lookup(p)`; for
`ZipFileSystem` they resolve the same archive entry (the `File`'s `ZipInfo`
payload agrees, though its `path` attribute preserves the request's case); and
a `FileSystemChain` over such members resolves the same inner `File`.
`RawFileSystem` is exempt: its case behaviour is the host filesystem's (see
the counterexample). -/
theorem C3_case_insensitive_amended (p : String) :
    (∀ v : VirtualFS, virtualGetFile v (strUpper p) = virtualGetFile v p ∧
      virtualGetFile v (strLower p) = virtualGetFile v p) ∧
    (∀ vp : VPKFS, vpkGetFile vp (strUpper p) = vpkGetFile vp p ∧
      vpkGetFile vp (strLower p) = vpkGetFile vp p) ∧
    (∀ z : ZipFS,
      (zipGetFile z (strUpper p)).map ZipFile.info = (zipGetFile z p).map ZipFile.info ∧
      (zipGetFile z (strLower p)).map ZipFile.info = (zipGetFile z p).map ZipFile.info) ∧
    (∀ systems : List (VirtualFS × String),
      (chainGetFile (systems.map (fun sp => (memberOfVirtual sp.1, sp.2)))
        (strUpper p)).map ChainFile.inner
        = (chainGetFile (systems.map (fun sp => (memberOfVirtual sp.1, sp.2))) p).map
            ChainFile.inner ∧
      (chainGetFile (systems.map (fun sp => (memberOfVirtual sp.1, sp.2)))
        (strLower p)).map ChainFile.inner
        = (chainGetFile (systems.map (fun sp => (memberOfVirtual sp.1, sp.2))) p).map
            ChainFile.inner) := by
  refine ⟨?_, ?_, ?_, ?_⟩
  · intro v
    exact ⟨virtualGetFile_congr_casefold v _ _ (casefold_strUpper p),
      virtualGetFile_congr_casefold v _ _ (casefold_strLower p)⟩
  · intro vp
    constructor
    · unfold vpkGetFile
      rw [show replaceBackslash (casefold (strUpper p)) = replaceBackslash (casefold p) from
        congrArg replaceBackslash (casefold_strUpper p)]
    · unfold vpkGetFile
      rw [show replaceBackslash (casefold (strLower p)) = replaceBackslash (casefold p) from
        congrArg replaceBackslash (casefold_strLower p)]
  · intro z
    constructor
    · unfold zipGetFile
      rw [casefold_replaceBackslash_strUpper p]
      cases dictLookup z.index (casefold (replaceBackslash p)) with
      | none => rfl
      | some e => simp
    · unfold zipGetFile
      rw [casefold_replaceBackslash_strLower p]
      cases dictLookup z.index (casefold (replaceBackslash p)) with
      | none => rfl
      | some e => simp
  · intro systems
    exact ⟨chainGetFile_virtual_congr systems _ p (casefold_strUpper p)
        (strStartsWith_slash_map Char.toUpper charMapOK_toUpper p),
      chainGetFile_virtual_congr systems _ p (casefold_strLower p)
        (strStartsWith_slash_map Char.toLower charMapOK_toLower p)⟩

/-! ## Claim C5 -/

/-- Claim C5 (code bug, evaluated): `walk_folder` cleans the folder argument
(`normpath('')` is `'.'`, then case-folds) but compares it against the
*original-case, uncleaned* stored filename with `startswith`.  So over the
non-empty mapping `{'a.txt': 'x'}`, `walk_folder('')` yields nothing instead
of every entry, and an entry stored as `DIR/f.txt` is never yielded for
`walk_folder('dir')`. -/
theorem C5_virtual_walk_folder_bug :
    virtualWalkFolder (virtualMake [("a.txt", VContent.text "x")] "utf8") "" = [] ∧
    (virtualMake [("a.txt", VContent.text "x")] "utf8").mapping
      = [("a.txt", ("a.txt", VContent.text "x"))] ∧
    cleanPath "" = "." ∧
    virtualWalkFolder (virtualMake [("DIR/f.txt", VContent.text "x")] "utf8") "dir" = [] := by
  refine ⟨by decide, by decide, by decide, by decide⟩

/-! ## Claim C7 -/

theorem dictLookup_cons {α : Type} (k' : String) (v' : α) (d : List (String × α)) (k : String) :
    dictLookup ((k', v') :: d) k = if k' = k then some v' else dictLookup d k := by
  by_cases hk : k' = k
  · rw [if_pos hk]
    unfold dictLookup
    rw [List.find?_cons_of_pos _ (by simpa using hk)]
    simp
  · rw [if_neg hk]
    unfold dictLookup
    rw [List.find?_cons_of_neg _ (by simpa using hk)]

/-- Claim C7 counterexample: two `VirtualFileSystem`s share the fixed locator
`<virtual>`, yet compare unequal, because `VirtualFileSystem.__eq__` compares
`bytes_encoding` and the `_mapping` contents — so equality is *not* "same
normalized root locator, independent of internal index state". -/
theorem C7_counterexample :
    (virtualMake [("a.txt", VContent.text "x")] "utf8").path = (virtualMake [] "utf8").path ∧
    virtualFSEq (virtualMake [("a.txt", VContent.text "x")] "utf8") (virtualMake [] "utf8")
      = false := by
  constructor
  · rfl
  · decide

/-- Claim C7 (amended): the base `FileSystem.__eq__` — inherited by
`RawFileSystem`, `ZipFileSystem` and `VPKFileSystem` — compares exactly the
`normpath`-normalized locators (ignoring `constrain_path` and any built
index), so for those backends the claim holds; but `VirtualFileSystem`
overrides equality to compare `bytes_encoding` plus the `_mapping` dict
(insertion order still irrelevant, per the last clause), so virtual systems
with equal locators and different mappings are unequal (see the
counterexample). -/
theorem C7_equality_amended :
    (∀ a b : RawFS, rawFSEq a b = true ↔ normpath a.path = normpath b.path) ∧
    (∀ (root : String) (c₁ c₂ : Bool), rawFSEq ⟨root, c₁⟩ ⟨root, c₂⟩ = true) ∧
    (∀ a b : ZipFS, zipFSEq a b = true ↔ normpath a.path = normpath b.path) ∧
    (∀ (pz : String) (e₁ e₂ : List ZipEntry), zipFSEq (zipMake pz e₁) (zipMake pz e₂) = true) ∧
    (∀ a b : VirtualFS, virtualFSEq a b = true ↔
      (a.bytes_encoding = b.bytes_encoding ∧ dictEqB a.mapping b.mapping = true)) ∧
    (∀ (k₁ k₂ : String) (v₁ v₂ : VContent) (enc : String), cleanPath k₁ ≠ cleanPath k₂ →
      virtualFSEq (virtualMake [(k₁, v₁), (k₂, v₂)] enc) (virtualMake [(k₂, v₂), (k₁, v₁)] enc)
        = true) := by
  refine ⟨?_, ?_, ?_, ?_, ?_, ?_⟩
  · intro a b
    unfold rawFSEq
    exact beq_iff_eq
  · intro root c₁ c₂
    simp [rawFSEq]
  · intro a b
    unfold zipFSEq
    exact beq_iff_eq
  · intro pz e₁ e₂
    simp [zipFSEq, zipMake]
  · intro a b
    unfold virtualFSEq
    rw [Bool.and_eq_true]
    simp
  · intro k₁ k₂ v₁ v₂ enc h
    have hb1 : (virtualMake [(k₁, v₁), (k₂, v₂)] enc).mapping
        = [(cleanPath k₁, (k₁, v₁)), (cleanPath k₂, (k₂, v₂))] := by
      show buildDict _ = _
      unfold buildDict
      rw [List.map_cons, List.map_cons, List.map_nil, List.foldl_cons, List.foldl_cons,
        List.foldl_nil]
      show dictInsert (cleanPath k₂) (k₂, v₂) [(cleanPath k₁, (k₁, v₁))] = _
      unfold dictInsert
      rw [if_neg h]
      rfl
    have hb2 : (virtualMake [(k₂, v₂), (k₁, v₁)] enc).mapping
        = [(cleanPath k₂, (k₂, v₂)), (cleanPath k₁, (k₁, v₁))] := by
      show buildDict _ = _
      unfold buildDict
      rw [List.map_cons, List.map_cons, List.map_nil, List.foldl_cons, List.foldl_cons,
        List.foldl_nil]
      show dictInsert (cleanPath k₁) (k₁, v₁) [(cleanPath k₂, (k₂, v₂))] = _
      unfold dictInsert
      rw [if_neg (fun hq => h hq.symm)]
      rfl
    unfold virtualFSEq
    rw [hb1, hb2]
    unfold dictEqB
    simp only [List.all_cons, List.all_nil, dictLookup_cons]
    simp [h, Ne.symm h, virtualMake]

/-- Witness for C7's amended theorem: dict equality ignores insertion order,
so the same two entries inserted in either order give equal virtual systems. -/
theorem C7_equality_amended_witness :
    cleanPath "a" ≠ cleanPath "b" ∧
    virtualFSEq (virtualMake [("a", VContent.text "1"), ("b", VContent.text "2")] "utf8")
      (virtualMake [("b", VContent.text "2"), ("a", VContent.text "1")] "utf8") = true := by
  refine ⟨by decide, ?_⟩
  exact C7_equality_amended.2.2.2.2.2 "a" "b" (VContent.text "1") (VContent.text "2") "utf8"
    (by decide)

/-! ## Claim C8 -/

/-- Claim C8: for any `File` obtained from a `ZipFileSystem` lookup,
`cache_key` returns the stored CRC of the payload's archive entry — an entry
of the archive's entry list whose case-folded name matches the case-folded
request — and for any `File` of a `VirtualFileSystem`, `cache_key` returns
`CACHE_KEY_INVALID`, which is `-1`. -/
theorem C8_cache_keys (pz name : String) (entries : List ZipEntry) (f : ZipFile) :
    (zipGetFile (zipMake pz entries) name = some f →
      zipCacheKey (zipMake pz entries) f = f.info.CRC ∧
      f.info ∈ entries ∧
      casefold f.info.filename = casefold (replaceBackslash name)) ∧
    (∀ (v : VirtualFS) (vf : VFile), virtualCacheKey v vf = CACHE_KEY_INVALID) ∧
    CACHE_KEY_INVALID = -1 := by
  refine ⟨?_, fun v vf => rfl, rfl⟩
  intro h
  unfold zipGetFile at h
  cases hl : dictLookup (zipMake pz entries).index (casefold (replaceBackslash name)) with
  | none =>
    rw [hl] at h
    cases h
  | some e =>
    rw [hl] at h
    have hf : f = ⟨replaceBackslash name, e⟩ := by
      have h2 : some (⟨replaceBackslash name, e⟩ : ZipFile) = some f := h
      injection h2 with h3
      exact h3.symm
    have hmem0 : (casefold (replaceBackslash name), e) ∈
        buildDict ((entries.filter (fun en => !(strEndsWith en.filename "/"))).map
          (fun en => (casefold en.filename, en))) := dictLookup_mem hl
    have hmem1 := mem_buildDict hmem0
    obtain ⟨en, hen, heq⟩ := List.mem_map.mp hmem1
    have he1 : casefold en.filename = casefold (replaceBackslash name) := congrArg Prod.fst heq
    have he2 : en = e := congrArg Prod.snd heq
    refine ⟨rfl, ?_, ?_⟩
    · rw [hf]
      show e ∈ entries
      rw [← he2]
      exact List.mem_of_mem_filter hen
    · rw [hf]
      show casefold e.filename = _
      rw [← he2]
      exact he1

/-- Witness for C8: a zip with one entry `a.txt` of CRC `123`, looked up as
`A.TXT`: the cache key is `123`. -/
theorem C8_cache_keys_witness :
    zipGetFile (zipMake "pak.zip" [⟨"a.txt", 123⟩]) "A.TXT"
      = some ⟨"A.TXT", ⟨"a.txt", 123⟩⟩ ∧
    zipCacheKey (zipMake "pak.zip" [⟨"a.txt", 123⟩]) ⟨"A.TXT", ⟨"a.txt", 123⟩⟩ = 123 := by
  refine ⟨by decide, ?_⟩
  have h := (C8_cache_keys "pak.zip" "A.TXT" [⟨"a.txt", 123⟩] ⟨"A.TXT", ⟨"a.txt", 123⟩⟩).1
    (by decide)
  exact h.1

/-! ## Claim C9 -/

/-- Claim C9: when a `VirtualFileSystem` stores *text* content, `open_str` on
any request whose case-folded form matches returns a `StringIO` in universal-
newline mode: the text read back has `\r\n` and `\r` normalized to `\n`, and
the caller's encoding argument plays no part (the result is independent of
`enc` and tagged as a plain text stream). -/
theorem C9_virtual_universal_newlines
    (m : List (String × VContent)) (encoding enc p q fn s : String)
    (hstore : dictLookup (virtualMake m encoding).mapping (cleanPath p)
      = some (fn, VContent.text s))
    (hcase : casefold q = casefold p) :
    virtualOpenStr (virtualMake m encoding) q enc
      = some (VirtTextResult.textStream (univNewlines s)) := by
  unfold virtualOpenStr
  rw [cleanPath_congr q p hcase, hstore]

/-- Witness for C9: the spec's example, in both case variants and with a
different encoding argument: the text read is `hello\nworld`. -/
theorem C9_virtual_universal_newlines_witness :
    virtualOpenStr (virtualMake [("a.txt", VContent.text "hello\r\nworld")] "utf8")
      "A.TXT" "utf8" = some (VirtTextResult.textStream "hello\nworld") ∧
    virtualOpenStr (virtualMake [("a.txt", VContent.text "hello\r\nworld")] "utf8")
      "a.txt" "ascii" = some (VirtTextResult.textStream "hello\nworld") := by
  constructor
  · have h := C9_virtual_universal_newlines [("a.txt", VContent.text "hello\r\nworld")]
      "utf8" "utf8" "a.txt" "A.TXT" "a.txt" "hello\r\nworld" (by decide) (by decide)
    rw [h]
    decide
  · have h := C9_virtual_universal_newlines [("a.txt", VContent.text "hello\r\nworld")]
      "utf8" "ascii" "a.txt" "a.txt" "a.txt" "hello\r\nworld" (by decide) (by decide)
    rw [h]
    decide

/-! ## Claim C10 -/

/-- Claim C10: `VirtualFileSystem` normalizes `.` and `..` segments before
index lookup (`_clean_path` applies `os.path.normpath`): for a normal segment
`a` and any relative nonempty `b`, looking up `a/../b` or `./b` resolves
exactly as looking up `b`, for both `_get_file` and `_file_exists`. -/
theorem C10_virtual_segment_normalization
    (v : VirtualFS) (a b : String) (ha : NormalSeg a)
    (hb : strStartsWith b "/" = false) (hb0 : b ≠ "") :
    virtualGetFile v (a ++ "/../" ++ b) = virtualGetFile v b ∧
    virtualExists v (a ++ "/../" ++ b) = virtualExists v b ∧
    virtualGetFile v ("./" ++ b) = virtualGetFile v b ∧
    virtualExists v ("./" ++ b) = virtualExists v b ∧
    (∀ p' q' : String, normpath q' = normpath p' →
      virtualGetFile v q' = virtualGetFile v p' ∧ virtualExists v q' = virtualExists v p') := by
  obtain ⟨ha0, had, hadd, has, -⟩ := ha
  rcases hda : a.data with _ | ⟨ca, cla⟩
  · exact absurd (string_eq_empty_iff.mpr hda) ha0
  have hca : ca ≠ '/' := fun hq => has (by rw [hda]; exact hq ▸ List.mem_cons_self _ _)
  have hsplit_a : splitSlash a = [a] := splitSlash_no_slash a has
  have hsplit_dd : splitSlash ".." = [".."] := by decide
  have hd1 : (a ++ "/../" ++ b) = a ++ "/" ++ (".." ++ "/" ++ b) := by
    apply String.ext
    simp [String.data_append]
  have hd2 : ("./" ++ b) = "." ++ "/" ++ b := by
    apply String.ext
    simp [String.data_append]
  have hb0' : initialSlashCount b = 0 := by
    unfold initialSlashCount
    rw [hb, if_neg Bool.false_ne_true]
  have hne1 : (a ++ "/" ++ (".." ++ "/" ++ b)) ≠ "" := by
    intro hq
    rw [string_eq_empty_iff] at hq
    rw [show (a ++ "/" ++ (".." ++ "/" ++ b)).data
      = a.data ++ '/' :: '.' :: '.' :: '/' :: b.data by simp [String.data_append]] at hq
    rw [hda] at hq
    cases hq
  have hne2 : ("." ++ "/" ++ b) ≠ "" := by
    intro hq
    rw [string_eq_empty_iff] at hq
    rw [show ("." ++ "/" ++ b).data = '.' :: '/' :: b.data by simp [String.data_append]] at hq
    cases hq
  have hcount1 : initialSlashCount (a ++ "/" ++ (".." ++ "/" ++ b)) = 0 := by
    refine initialSlashCount_zero _ ca (cla ++ '/' :: '.' :: '.' :: '/' :: b.data) ?_ hca
    rw [show (a ++ "/" ++ (".." ++ "/" ++ b)).data
      = a.data ++ '/' :: '.' :: '.' :: '/' :: b.data by simp [String.data_append], hda]
    rfl
  have hcount2 : initialSlashCount ("." ++ "/" ++ b) = 0 := by
    refine initialSlashCount_zero _ '.' ('/' :: b.data) ?_ (by decide)
    rw [show ("." ++ "/" ++ b).data = '.' :: '/' :: b.data by simp [String.data_append]]
  have hsplit1 : splitSlash (a ++ "/" ++ (".." ++ "/" ++ b)) = a :: ".." :: splitSlash b := by
    rw [splitSlash_append, splitSlash_append, hsplit_a, hsplit_dd]
    rfl
  have hsplit2 : splitSlash ("." ++ "/" ++ b) = "." :: splitSlash b := by
    rw [splitSlash_append, show splitSlash "." = ["."] by decide]
    rfl
  have hstep : normSegs false [] (a :: ".." :: splitSlash b) = normSegs false [] (splitSlash b) := by
    rw [normSegs_cons, if_neg (fun hor => hor.elim ha0 had), if_pos (Or.inl hadd),
      normSegs_cons, if_neg (by decide),
      if_neg (by
        rintro (hx | ⟨-, hx⟩ | hx)
        · exact hx rfl
        · simp at hx
        · simp at hx
          exact hadd hx)]
    rw [show (([] : List String) ++ [a]).dropLast = ([] : List String) by simp]
  have hstep2 : normSegs false [] ("." :: splitSlash b) = normSegs false [] (splitSlash b) := by
    rw [normSegs_cons, if_pos (Or.inr rfl)]
  have hnorm1 : normpath (a ++ "/../" ++ b) = normpath b := by
    rw [hd1]
    unfold normpath
    rw [if_neg hne1, if_neg hb0, hcount1, hb0', hsplit1]
    unfold normpathCore
    rw [show ((0 : Nat) != 0) = false from rfl, hstep]
  have hnorm2 : normpath ("./" ++ b) = normpath b := by
    rw [hd2]
    unfold normpath
    rw [if_neg hne2, if_neg hb0, hcount2, hb0', hsplit2]
    unfold normpathCore
    rw [show ((0 : Nat) != 0) = false from rfl, hstep2]
  have hcp1 : cleanPath (a ++ "/../" ++ b) = cleanPath b := by
    unfold cleanPath
    rw [hnorm1]
  have hcp2 : cleanPath ("./" ++ b) = cleanPath b := by
    unfold cleanPath
    rw [hnorm2]
  refine ⟨?_, ?_, ?_, ?_, ?_⟩
  · unfold virtualGetFile
    rw [hcp1]
  · unfold virtualExists
    rw [hcp1]
  · unfold virtualGetFile
    rw [hcp2]
  · unfold virtualExists
    rw [hcp2]
  · intro p' q' hn
    have hcp : cleanPath q' = cleanPath p' := by
      unfold cleanPath
      rw [hn]
    constructor
    · unfold virtualGetFile
      rw [hcp]
    · unfold virtualExists
      rw [hcp]

/-- Witness for C10: `a/../b.txt` and `./b.txt` resolve like `b.txt`, which is
present in the mapping. -/
theorem C10_virtual_segment_normalization_witness :
    NormalSeg "a" ∧
    virtualGetFile (virtualMake [("b.txt", VContent.text "z")] "utf8") "a/../b.txt"
      = virtualGetFile (virtualMake [("b.txt", VContent.text "z")] "utf8") "b.txt" ∧
    virtualGetFile (virtualMake [("b.txt", VContent.text "z")] "utf8") "b.txt"
      = some ⟨"b.txt", "b.txt"⟩ := by
  refine ⟨by decide, ?_, by decide⟩
  exact (C10_virtual_segment_normalization (virtualMake [("b.txt", VContent.text "z")] "utf8")
    "a" "b.txt" (by decide) (by decide) (by decide)).1

end SrcToolsFS
